import Mathlib

/-!
# regexrand: random generation of strings from a regular-expression tree

A shallow embedding of `regexrand.go`.

* A Go `string` and the content of a `strings.Builder` are byte sequences,
  modelled as `List Nat` (every element below 256).
* Go's `int` (64 bits) and `rune` (`int32`) are modelled as `Int`; every sum and
  difference the generator forms on them (`moreLimit-min+1`, `re.Max-re.Min+1`,
  `min+draw`, `hi+1`) is wrapped into the machine range (`wrapInt`, `wrapRune`).
  A length minus one cannot leave the range and is left as it is.
* A `*strings.Builder` is either the nil pointer or a builder with its content.
* A run-time panic (nil dereference, index out of range, `rand.Int` called
  with a bound `<= 0`) is the result `none`.
* The loops of the batch generators take a step budget (`fuel`), so that a
  loop that does not terminate is told apart from one that returns or panics.
* The random source is an explicit sequence of raw draws: `cryptoRandInt max`
  consumes the next draw `r` and yields `r % max`, so every value of
  `[0, max)` is a possible result and no other value is.  The reader
  `rand.Reader` itself is assumed not to fail.
-/

namespace Regexrand

/-! ## The syntax tree -/

/-- Operator kinds, with the numeric values of the Go standard library. -/
abbrev OpNoMatch : Nat := 1
abbrev OpEmptyMatch : Nat := 2
abbrev OpLiteral : Nat := 3
abbrev OpCharClass : Nat := 4
abbrev OpAnyCharNotNL : Nat := 5
abbrev OpAnyChar : Nat := 6
abbrev OpBeginLine : Nat := 7
abbrev OpEndLine : Nat := 8
abbrev OpBeginText : Nat := 9
abbrev OpEndText : Nat := 10
abbrev OpWordBoundary : Nat := 11
abbrev OpNoWordBoundary : Nat := 12
abbrev OpCapture : Nat := 13
abbrev OpStar : Nat := 14
abbrev OpPlus : Nat := 15
abbrev OpQuest : Nat := 16
abbrev OpRepeat : Nat := 17
abbrev OpConcat : Nat := 18
abbrev OpAlternate : Nat := 19

/-- The largest Unicode code point, `unicode.MaxRune`. -/
abbrev MaxRune : Int := 0x10FFFF

/-- A node of the syntax tree, with the fields the generator reads:
`Op`, `Rune`, `Sub`, `Min` and `Max`. -/
inductive Regexp where
  | mk (Op : Nat) (Rune : List Int) (Sub : List Regexp) (Min : Int) (Max : Int)

namespace Regexp

def Op : Regexp → Nat
  | mk op _ _ _ _ => op

def Rune : Regexp → List Int
  | mk _ rune _ _ _ => rune

def Sub : Regexp → List Regexp
  | mk _ _ sub _ _ => sub

def Min : Regexp → Int
  | mk _ _ _ min _ => min

def Max : Regexp → Int
  | mk _ _ _ _ max => max

end Regexp

/-! ## Strings, UTF-8 and `strings.Builder` -/

/-- The bytes of an ASCII string constant. -/
def bytesOf (s : String) : List Nat :=
  s.toList.map Char.toNat

/-- The UTF-8 encoding Go appends for a rune (`utf8.AppendRune`).  A rune that
is negative (as an unsigned value it exceeds `MaxRune`), above `MaxRune` or a
surrogate is written as U+FFFD; the other runes take one to four bytes. -/
def encodeRune (r : Int) : List Nat :=
  if r < 0 ∨ r > 0x10FFFF ∨ (0xD800 ≤ r ∧ r ≤ 0xDFFF) then [0xEF, 0xBF, 0xBD]
  else
    let u := r.toNat
    if u ≤ 0x7F then [u]
    else if u ≤ 0x7FF then [0xC0 + u / 64, 0x80 + u % 64]
    else if u ≤ 0xFFFF then [0xE0 + u / 4096, 0x80 + u / 64 % 64, 0x80 + u % 64]
    else [0xF0 + u / 262144, 0x80 + u / 4096 % 64, 0x80 + u / 64 % 64, 0x80 + u % 64]

/-- A `*strings.Builder`: the nil pointer, or a pointer to a builder that
holds the bytes written so far. -/
inductive Builder where
  | nil
  | buf (bytes : List Nat)
  deriving DecidableEq, Repr

namespace Builder

/-- Every method of `strings.Builder` dereferences its receiver, so it panics
on the nil pointer. -/
def WriteString (b : Builder) (s : List Nat) : Option Builder :=
  match b with
  | nil => none
  | buf bytes => some (buf (bytes ++ s))

def WriteRune (b : Builder) (r : Int) : Option Builder :=
  match b with
  | nil => none
  | buf bytes => some (buf (bytes ++ encodeRune r))

def WriteByte (b : Builder) (c : Nat) : Option Builder :=
  match b with
  | nil => none
  | buf bytes => some (buf (bytes ++ [c]))

def Len (b : Builder) : Option Nat :=
  match b with
  | nil => none
  | buf bytes => some bytes.length

def String (b : Builder) : Option (List Nat) :=
  match b with
  | nil => none
  | buf bytes => some bytes

def Reset (b : Builder) : Option Builder :=
  match b with
  | nil => none
  | buf _ => some (buf [])

end Builder

/-! ## The leaf helpers -/

/-- Go `int` arithmetic on a 64-bit platform: a sum or difference wrapped into
the range from `-2^63` to `2^63 - 1`. -/
def wrapInt (x : Int) : Int :=
  (x + 9223372036854775808) % 18446744073709551616 - 9223372036854775808

/-- Go `rune` (`int32`) arithmetic: a sum wrapped into the range from `-2^31`
to `2^31 - 1`. -/
def wrapRune (x : Int) : Int :=
  (x + 2147483648) % 4294967296 - 2147483648

/-- Go `cryptoRandInt`: `rand.Int` panics when `max <= 0`, and otherwise
returns a value of `[0, max)`; the draw is taken from the head of `rnd`. -/
def cryptoRandInt (max : Int) (rnd : List Nat) : Option (Int × List Nat) :=
  if max ≤ 0 then none
  else some ((rnd.headD 0 : Int) % max, rnd.tail)

/-- Go `strings.ContainsRune(s, r)` for a rune below `utf8.RuneSelf`, the only
case the generator uses: a byte search. -/
def ContainsRune (s : List Nat) (r : Nat) : Bool :=
  decide (r ∈ s)

/-- Go `asciiExcluding`: the loop over the runes 32..126, writing `i` when
`strings.ContainsRune(xchars, i)` holds. -/
def asciiExcluding (xchars : List Nat) : List Nat :=
  (List.range' 32 95).foldl
    (fun res i => if ContainsRune xchars i then res ++ encodeRune i else res) []

/-- One `lo, hi` pair of a character class, as the inner loop
`for ; lo < hi+1; lo++` writes it; the bound `hi+1` is a `rune` sum. -/
def expandPair (lo hi : Int) : List Int :=
  if lo ≠ hi then
    (List.range (wrapRune (hi + 1) - lo).toNat).map (fun (k : Nat) => lo + (k : Int))
  else [lo]

/-- The runes the class loop writes to `charset`, pair by pair (the list has
even length where the loop runs). -/
def expandRunes : List Int → List Int
  | lo :: hi :: rest => expandPair lo hi ++ expandRunes rest
  | _ => []

/-- The string `charset.String()` of a character class. -/
def charsetOf (rune : List Int) : List Nat :=
  (expandRunes rune).flatMap encodeRune

/-- The loop `for _, r := range re.Rune { b.WriteRune(r) }`. -/
def writeRunes (b : Builder) : List Int → Option Builder
  | [] => some b
  | r :: rs => (b.WriteRune r).bind (fun b1 => writeRunes b1 rs)

/-- The statements `charbyte := stringset[cryptoRandInt(len(stringset)-1)]`
and `b.WriteByte(charbyte)`. -/
def writeSample (stringset : List Nat) (b : Builder) (rnd : List Nat) :
    Option (Builder × List Nat) :=
  (cryptoRandInt ((stringset.length : Int) - 1) rnd).bind (fun p =>
    (stringset.get? p.1.toNat).bind (fun charbyte =>
      (b.WriteByte charbyte).map (fun b1 => (b1, p.2))))

/-- A counted loop `for i := n; i > 0; i-- { body }` over the builder and the
random source. -/
def loopN (body : Builder → List Nat → Option (Builder × List Nat)) :
    Nat → Builder → List Nat → Option (Builder × List Nat)
  | 0, b, rnd => some (b, rnd)
  | n + 1, b, rnd => (body b rnd).bind (fun p => loopN body n p.1 p.2)

/-! ## The match generator -/

mutual

/-- Go `GenerateMatch(b, re, moreLimit)`, threading the builder and the random
source; `none` is a panic. -/
def GenerateMatch (re : Regexp) (moreLimit : Int) (b : Builder) (rnd : List Nat) :
    Option (Builder × List Nat) :=
  match re with
  | .mk op rune sub min max =>
    if op = OpNoMatch then
      (b.WriteString (bytesOf "<No Match operator is unsupported>")).map (fun b1 => (b1, rnd))
    else if op = OpEmptyMatch then
      (b.WriteString []).map (fun b1 => (b1, rnd))
    else if op = OpLiteral then
      (writeRunes b rune).map (fun b1 => (b1, rnd))
    else if op = OpCharClass then
      if rune.length % 2 ≠ 0 then
        (b.WriteString (bytesOf "[invalid char class]")).map (fun b1 => (b1, rnd))
      else
        match rune.head?, rune.getLast? with
        | some first, some last =>
          if first = 0 ∧ last = MaxRune then
            writeSample (asciiExcluding (charsetOf rune)) b rnd
          else
            writeSample (charsetOf rune) b rnd
        | _, _ => none
    else if op = OpAnyCharNotNL ∨ op = OpAnyChar then
      writeSample (asciiExcluding []) b rnd
    else if op = OpBeginLine ∨ op = OpEndLine then
      b.Len.bind (fun n =>
        if n > 0 then (b.WriteByte 10).map (fun b1 => (b1, rnd)) else some (b, rnd))
    else if op = OpBeginText then
      b.Len.bind (fun n =>
        if n > 0 then
          (b.WriteString (bytesOf
            "<Invalid position of OpBeginText. Needs to be at the start of expression>")).map
            (fun b1 => (b1, rnd))
        else some (b, rnd))
    else if op = OpEndText then
      some (b, rnd)
    else if op = OpWordBoundary ∨ op = OpNoWordBoundary then
      (b.WriteString (bytesOf "<Word boundary operators are unsupported>")).map
        (fun b1 => (b1, rnd))
    else if op = OpCapture then
      sub.head?.bind (fun s =>
        if s.Op ≠ OpEmptyMatch then GenerateSub sub 0 moreLimit b rnd else some (b, rnd))
    else if op = OpStar ∨ op = OpPlus then
      let min : Int := if op = OpPlus then 1 else 0
      (cryptoRandInt (wrapInt (wrapInt (moreLimit - min) + 1)) rnd).bind (fun p =>
        loopN (fun b1 r1 => GenerateSub sub 0 moreLimit b1 r1) (wrapInt (min + p.1)).toNat
          b p.2)
    else if op = OpQuest then
      (cryptoRandInt 0x7FFFFFFF rnd).bind (fun p =>
        if p.1 > 0x3FFFFFFF then GenerateSub sub 0 moreLimit b p.2 else some (b, p.2))
    else if op = OpRepeat then
      (cryptoRandInt (wrapInt (wrapInt (max - min) + 1)) rnd).bind (fun p =>
        loopN (fun b1 r1 => GenerateSub sub 0 moreLimit b1 r1) (wrapInt (min + p.1)).toNat
          b p.2)
    else if op = OpConcat then
      GenerateAll sub moreLimit b rnd
    else if op = OpAlternate then
      (cryptoRandInt ((sub.length : Int) - 1) rnd).bind (fun p =>
        GenerateSub sub p.1.toNat moreLimit b p.2)
    else
      (b.WriteString (bytesOf "<invalid op" ++ bytesOf (Nat.repr op) ++ bytesOf ">")).map
        (fun b1 => (b1, rnd))

/-- The call `GenerateMatch(b, re.Sub[i], moreLimit)`; indexing past the end
of `re.Sub` panics. -/
def GenerateSub (subs : List Regexp) (i : Nat) (moreLimit : Int) (b : Builder)
    (rnd : List Nat) : Option (Builder × List Nat) :=
  match subs, i with
  | [], _ => none
  | s :: _, 0 => GenerateMatch s moreLimit b rnd
  | _ :: rest, i + 1 => GenerateSub rest i moreLimit b rnd

/-- The loop `for _, sub := range re.Sub { GenerateMatch(b, sub, moreLimit) }`. -/
def GenerateAll (subs : List Regexp) (moreLimit : Int) (b : Builder) (rnd : List Nat) :
    Option (Builder × List Nat) :=
  match subs with
  | [] => some (b, rnd)
  | s :: rest => (GenerateMatch s moreLimit b rnd).bind (fun p =>
      GenerateAll rest moreLimit p.1 p.2)

end

/-! ## The string and batch generators -/

/-- Go `GenerateString`: the builder variable is declared as a pointer and is
never assigned, so `GenerateMatch`, `b.String()` and `b.Reset()` all receive
the nil pointer. -/
def GenerateString (re : Regexp) (moreLimit : Int) (rnd : List Nat) :
    Option (List Nat × List Nat) :=
  (GenerateMatch re moreLimit Builder.nil rnd).bind (fun p =>
    p.1.String.bind (fun item =>
      p.1.Reset.map (fun _ => (item, p.2))))

/-- The outcome of running a loop that need not terminate: a returned value,
a panic, or the exhaustion of the step budget given to the model. -/
inductive Run (α : Type) where
  | ret (a : α)
  | panic
  | outOfFuel
  deriving DecidableEq, Repr

/-- The loop of Go `GenerateStrings` over a string generator `gen`: the
counter `i` is compared with `count` and is not changed by the body. -/
def GenerateStringsLoop (gen : List Nat → Option (List Nat × List Nat)) (count : Int) :
    Nat → Int → List (List Nat) → List Nat → Run (List (List Nat))
  | 0, i, result, _ => if i < count then Run.outOfFuel else Run.ret result
  | fuel + 1, i, result, rnd =>
    if i < count then
      match gen rnd with
      | none => Run.panic
      | some (item, rnd1) => GenerateStringsLoop gen count fuel i (result ++ [item]) rnd1
    else Run.ret result

/-- Go `GenerateStrings`, run for at most `fuel` loop iterations. -/
def GenerateStrings (re : Regexp) (moreLimit count : Int) (fuel : Nat) (rnd : List Nat) :
    Run (List (List Nat)) :=
  GenerateStringsLoop (GenerateString re moreLimit) count fuel 0 [] rnd

/-- The retry budget `iMaxRun` of Go `GenerateUniqueStrings`. -/
abbrev iMaxRun : Int := 10000000

/-- The loop of Go `GenerateUniqueStrings` over a string generator `gen`, with
the counters `i` and `ii`, the keys of the map `cache` and the slice `result`. -/
def GenerateUniqueStringsLoop (gen : List Nat → Option (List Nat × List Nat)) (count : Int) :
    Nat → Int → Int → List (List Nat) → List (List Nat) → List Nat → Run (List (List Nat))
  | 0, i, _, _, result, _ => if i < count then Run.outOfFuel else Run.ret result
  | fuel + 1, i, ii, cache, result, rnd =>
    if i < count then
      if ii + 1 ≥ iMaxRun then Run.ret result
      else
        match gen rnd with
        | none => Run.panic
        | some (item, rnd1) =>
          if item ∈ cache then
            GenerateUniqueStringsLoop gen count fuel i (ii + 1) cache result rnd1
          else
            GenerateUniqueStringsLoop gen count fuel (i + 1) (ii + 1) (item :: cache)
              (result ++ [item]) rnd1
    else Run.ret result

/-- Go `GenerateUniqueStrings`, run for at most `fuel` loop iterations. -/
def GenerateUniqueStrings (re : Regexp) (moreLimit count : Int) (fuel : Nat) (rnd : List Nat) :
    Run (List (List Nat)) :=
  GenerateUniqueStringsLoop (GenerateString re moreLimit) count fuel 0 0 [] [] rnd

/-! ## The language of a tree and the classes of trees of the claims -/

/-- The UTF-8 text of a sequence of code points, as `WriteRune` writes it. -/
def encodeRunes (w : List Int) : List Nat :=
  w.flatMap encodeRune

/-- A code point that has a UTF-8 encoding of its own: it lies between 0 and
`MaxRune` and is not a surrogate.  `WriteRune` writes every other rune as
U+FFFD. -/
def validRune (c : Int) : Bool :=
  decide (0 ≤ c ∧ c ≤ 0x10FFFF ∧ ¬ (0xD800 ≤ c ∧ c ≤ 0xDFFF))

/-- The text `s` written `k` times in a row. -/
def repeatText (s : List Nat) : Nat → List Nat
  | 0 => []
  | k + 1 => s ++ repeatText s k

/-- Code point `c` lies in one of the `lo, hi` pairs of a character class. -/
def inClass : List Int → Int → Bool
  | lo :: hi :: rest, c => decide (lo ≤ c ∧ c ≤ hi) || inClass rest c
  | _, _ => false

/-- Word `w` is a concatenation of `k` words of `L`. -/
def Power (L : List Int → Prop) : Nat → List Int → Prop
  | 0, w => w = []
  | k + 1, w => ∃ u v, w = u ++ v ∧ L u ∧ Power L k v

mutual

/-- The regular language of a tree, over sequences of code points: `Matches re w`
says that the regular expression `re` matches the whole of `w`.  A repeat node
with `Max = -1` has no upper bound. -/
def Matches : Regexp → List Int → Prop
  | .mk op rune sub min max, w =>
    (op = OpEmptyMatch ∧ w = []) ∨
    (op = OpLiteral ∧ w = rune) ∨
    (op = OpCharClass ∧ ∃ c, w = [c] ∧ inClass rune c = true) ∨
    (op = OpCapture ∧ MatchesSub sub 0 w) ∨
    (op = OpStar ∧ ∃ k, Power (fun u => MatchesSub sub 0 u) k w) ∨
    (op = OpPlus ∧ ∃ k, 1 ≤ k ∧ Power (fun u => MatchesSub sub 0 u) k w) ∨
    (op = OpQuest ∧ (w = [] ∨ MatchesSub sub 0 w)) ∨
    (op = OpRepeat ∧ ∃ k : Nat, min ≤ (k : Int) ∧ (max = -1 ∨ (k : Int) ≤ max) ∧
      Power (fun u => MatchesSub sub 0 u) k w) ∨
    (op = OpConcat ∧ MatchesAll sub w) ∨
    (op = OpAlternate ∧ ∃ i, MatchesSub sub i w)

/-- Child number `i` matches `w`. -/
def MatchesSub : List Regexp → Nat → List Int → Prop
  | [], _, _ => False
  | s :: _, 0, w => Matches s w
  | _ :: rest, i + 1, w => MatchesSub rest i w

/-- Word `w` splits into one matched word per child, in order. -/
def MatchesAll : List Regexp → List Int → Prop
  | [], w => w = []
  | s :: rest, w => ∃ u v, w = u ++ v ∧ Matches s u ∧ MatchesAll rest v

end

/-- A character class given by range pairs whose bounds are all ASCII. -/
def asciiClass (rune : List Int) : Bool :=
  rune.all (fun r => decide (0 ≤ r ∧ r ≤ 127))

/-- The test by which the generator recognises a negated class. -/
def negatedClass (rune : List Int) : Bool :=
  decide (rune.head? = some 0 ∧ rune.getLast? = some MaxRune)

mutual

/-- The trees built from empty-match, capture, concatenation, alternation,
star, plus and optional nodes, from literal nodes whose code points are all
valid, from repeat nodes whose bounds are of type `int` with a minimum that is
not negative and a difference `Max - Min` that does not underflow (every
`Max >= -1` is of that kind), and from character classes that are lists of
range pairs, either over ASCII or recognised as negated with bounds of type
`int32`. -/
def Supported : Regexp → Bool
  | .mk op rune sub min max =>
    (decide (op = OpEmptyMatch ∨ op = OpCapture ∨ op = OpStar ∨
        op = OpPlus ∨ op = OpQuest ∨ op = OpConcat ∨ op = OpAlternate) ||
      (decide (op = OpLiteral) && rune.all validRune) ||
      (decide (op = OpRepeat ∧ 0 ≤ min ∧ min ≤ 9223372036854775807 ∧
        max ≤ 9223372036854775807 ∧ -9223372036854775808 ≤ max - min)) ||
      (decide (op = OpCharClass ∧ rune.length % 2 = 0) &&
        (asciiClass rune ||
          (negatedClass rune &&
            rune.all (fun r => decide (-2147483648 ≤ r ∧ r ≤ 2147483647)))))) &&
    SupportedAll sub

def SupportedAll : List Regexp → Bool
  | [] => true
  | s :: rest => Supported s && SupportedAll rest

end

mutual

/-- The trees made only of literal nodes and concatenation nodes. -/
def litConcat : Regexp → Bool
  | .mk op _ sub _ _ => decide (op = OpLiteral) || (decide (op = OpConcat) && litConcatAll sub)

def litConcatAll : List Regexp → Bool
  | [] => true
  | s :: rest => litConcat s && litConcatAll rest

end

mutual

/-- The code points of the literals of a tree of literals and concatenations,
in left-to-right order. -/
def literalText : Regexp → List Int
  | .mk op rune sub _ _ => if op = OpLiteral then rune else literalTextAll sub

def literalTextAll : List Regexp → List Int
  | [] => []
  | s :: rest => literalText s ++ literalTextAll rest

end

/-- The property of a run that the claims about generated text share: started
on the content `bytes`, a run that completes ends on `bytes` followed by the
UTF-8 text of a word of `L` made of valid code points. -/
def AppendsWordOf (L : List Int → Prop)
    (run : Builder → List Nat → Option (Builder × List Nat)) : Prop :=
  ∀ (bytes : List Nat) (rnd : List Nat) (b1 : Builder) (rnd1 : List Nat),
    run (Builder.buf bytes) rnd = some (b1, rnd1) →
    ∃ w, L w ∧ (∀ c ∈ w, validRune c = true) ∧ b1 = Builder.buf (bytes ++ encodeRunes w)

/-! ## The sequence of generated strings -/

/-- The first `n` strings that a generator which always returns produces from
the draws `rnd`, one call after the other. -/
def generated (g : List Nat → List Nat × List Nat) : Nat → List Nat → List (List Nat)
  | 0, _ => []
  | n + 1, rnd => (g rnd).1 :: generated g n (g rnd).2

/-- One step of deduplication: `x` is appended unless it is already present. -/
def addNew (acc : List (List Nat)) (x : List Nat) : List (List Nat) :=
  if x ∈ acc then acc else acc ++ [x]

/-- The distinct values of a sequence, in the order of their first occurrence. -/
def firstOccurrences (l : List (List Nat)) : List (List Nat) :=
  l.foldl addNew []

/-! ## Placeholder texts -/

/-- The placeholder text that `GenerateMatch` writes for a node it cannot
generate: a malformed class, a begin-of-text node, a word-boundary node, or a
node of an unrecognised operator kind. -/
def errorText (re : Regexp) : List Nat :=
  if re.Op = OpCharClass then bytesOf "[invalid char class]"
  else if re.Op = OpBeginText then
    bytesOf "<Invalid position of OpBeginText. Needs to be at the start of expression>"
  else if re.Op = OpWordBoundary ∨ re.Op = OpNoWordBoundary then
    bytesOf "<Word boundary operators are unsupported>"
  else bytesOf "<invalid op" ++ bytesOf (Nat.repr re.Op) ++ bytesOf ">"

/-- The structural tree errors: a character class with an odd-length range
list, a word-boundary or non-word-boundary node, a begin-of-text node met
when the buffer holds `bytes ≠ []`, and a node whose operator kind is none of
the nineteen known ones. -/
def structuralError (re : Regexp) (bytes : List Nat) : Bool :=
  decide (re.Op = OpCharClass ∧ re.Rune.length % 2 ≠ 0) ||
  decide (re.Op = OpWordBoundary ∨ re.Op = OpNoWordBoundary) ||
  decide (re.Op = OpBeginText ∧ bytes ≠ []) ||
  decide (re.Op = 0 ∨ 20 ≤ re.Op)

/-! ## The match generator with an explicit recursion budget

`GenerateMatch` above is defined by recursion on the tree.  The same switch is
given here a second time with the recursive call as a parameter, and run with
a budget on the depth of the recursion, so that termination is a statement:
a budget of the height of the tree is never exhausted. -/

/-- The outcome of a run that cannot run out of budget. -/
def toRun {α : Type} : Option α → Run α
  | none => Run.panic
  | some a => Run.ret a

/-- A counted loop `for i := n; i > 0; i-- { body }` whose body may panic or
run out of budget. -/
def loopRun (body : Builder → List Nat → Run (Builder × List Nat)) :
    Nat → Builder → List Nat → Run (Builder × List Nat)
  | 0, b, rnd => Run.ret (b, rnd)
  | n + 1, b, rnd =>
    match body b rnd with
    | Run.ret p => loopRun body n p.1 p.2
    | Run.panic => Run.panic
    | Run.outOfFuel => Run.outOfFuel

/-- The call `GenerateMatch(b, re.Sub[i], moreLimit)` through `recur`. -/
def subRun (recur : Regexp → Int → Builder → List Nat → Run (Builder × List Nat))
    (subs : List Regexp) (i : Nat) (moreLimit : Int) (b : Builder) (rnd : List Nat) :
    Run (Builder × List Nat) :=
  match subs.get? i with
  | none => Run.panic
  | some s => recur s moreLimit b rnd

/-- The loop `for _, sub := range re.Sub { GenerateMatch(b, sub, moreLimit) }`
through `recur`. -/
def allRun (recur : Regexp → Int → Builder → List Nat → Run (Builder × List Nat)) :
    List Regexp → Int → Builder → List Nat → Run (Builder × List Nat)
  | [], _, b, rnd => Run.ret (b, rnd)
  | s :: rest, moreLimit, b, rnd =>
    match recur s moreLimit b rnd with
    | Run.ret p => allRun recur rest moreLimit p.1 p.2
    | Run.panic => Run.panic
    | Run.outOfFuel => Run.outOfFuel

/-- The body of Go `GenerateMatch`, with every recursive call made through
`recur`. -/
def GenerateStep (recur : Regexp → Int → Builder → List Nat → Run (Builder × List Nat))
    (re : Regexp) (moreLimit : Int) (b : Builder) (rnd : List Nat) :
    Run (Builder × List Nat) :=
  match re with
  | .mk op rune sub min max =>
    if op = OpNoMatch then
      toRun ((b.WriteString (bytesOf "<No Match operator is unsupported>")).map
        (fun b1 => (b1, rnd)))
    else if op = OpEmptyMatch then
      toRun ((b.WriteString []).map (fun b1 => (b1, rnd)))
    else if op = OpLiteral then
      toRun ((writeRunes b rune).map (fun b1 => (b1, rnd)))
    else if op = OpCharClass then
      if rune.length % 2 ≠ 0 then
        toRun ((b.WriteString (bytesOf "[invalid char class]")).map (fun b1 => (b1, rnd)))
      else
        match rune.head?, rune.getLast? with
        | some first, some last =>
          if first = 0 ∧ last = MaxRune then
            toRun (writeSample (asciiExcluding (charsetOf rune)) b rnd)
          else
            toRun (writeSample (charsetOf rune) b rnd)
        | _, _ => Run.panic
    else if op = OpAnyCharNotNL ∨ op = OpAnyChar then
      toRun (writeSample (asciiExcluding []) b rnd)
    else if op = OpBeginLine ∨ op = OpEndLine then
      toRun (b.Len.bind (fun n =>
        if n > 0 then (b.WriteByte 10).map (fun b1 => (b1, rnd)) else some (b, rnd)))
    else if op = OpBeginText then
      toRun (b.Len.bind (fun n =>
        if n > 0 then
          (b.WriteString (bytesOf
            "<Invalid position of OpBeginText. Needs to be at the start of expression>")).map
            (fun b1 => (b1, rnd))
        else some (b, rnd)))
    else if op = OpEndText then
      Run.ret (b, rnd)
    else if op = OpWordBoundary ∨ op = OpNoWordBoundary then
      toRun ((b.WriteString (bytesOf "<Word boundary operators are unsupported>")).map
        (fun b1 => (b1, rnd)))
    else if op = OpCapture then
      match sub.head? with
      | none => Run.panic
      | some s =>
        if s.Op ≠ OpEmptyMatch then subRun recur sub 0 moreLimit b rnd else Run.ret (b, rnd)
    else if op = OpStar ∨ op = OpPlus then
      let min : Int := if op = OpPlus then 1 else 0
      match cryptoRandInt (wrapInt (wrapInt (moreLimit - min) + 1)) rnd with
      | none => Run.panic
      | some p =>
        loopRun (fun b1 r1 => subRun recur sub 0 moreLimit b1 r1) (wrapInt (min + p.1)).toNat
          b p.2
    else if op = OpQuest then
      match cryptoRandInt 0x7FFFFFFF rnd with
      | none => Run.panic
      | some p =>
        if p.1 > 0x3FFFFFFF then subRun recur sub 0 moreLimit b p.2 else Run.ret (b, p.2)
    else if op = OpRepeat then
      match cryptoRandInt (wrapInt (wrapInt (max - min) + 1)) rnd with
      | none => Run.panic
      | some p =>
        loopRun (fun b1 r1 => subRun recur sub 0 moreLimit b1 r1) (wrapInt (min + p.1)).toNat
          b p.2
    else if op = OpConcat then
      allRun recur sub moreLimit b rnd
    else if op = OpAlternate then
      match cryptoRandInt ((sub.length : Int) - 1) rnd with
      | none => Run.panic
      | some p => subRun recur sub p.1.toNat moreLimit b p.2
    else
      toRun ((b.WriteString (bytesOf "<invalid op" ++ bytesOf (Nat.repr op) ++ bytesOf ">")).map
        (fun b1 => (b1, rnd)))

/-- Go `GenerateMatch` run with a budget on the depth of its recursion: a call
needs one unit, and the calls it makes get what is left. -/
def GenerateMatchFuel : Nat → Regexp → Int → Builder → List Nat → Run (Builder × List Nat)
  | 0, _, _, _, _ => Run.outOfFuel
  | fuel + 1, re, moreLimit, b, rnd =>
    GenerateStep (fun s m b1 r1 => GenerateMatchFuel fuel s m b1 r1) re moreLimit b rnd

mutual

/-- The height of a tree: the number of nodes on its longest branch. -/
def height : Regexp → Nat
  | .mk _ _ sub _ _ => heightAll sub + 1

def heightAll : List Regexp → Nat
  | [] => 0
  | s :: rest => Nat.max (height s) (heightAll rest)

end

/-! ## Printable output -/

/-- Byte `c` is one of the 95 printable ASCII characters. -/
def printable (c : Nat) : Prop :=
  32 ≤ c ∧ c ≤ 126

/-- All the code points of a list are printable ASCII. -/
def printableRunes (rune : List Int) : Bool :=
  rune.all (fun r => decide (32 ≤ r ∧ r ≤ 126))

mutual

/-- The trees whose literal nodes hold printable ASCII only and whose
character classes are malformed (odd length), recognised as negated, or given
by range bounds that are all printable ASCII. -/
def printableTree : Regexp → Bool
  | .mk op rune sub _ _ =>
    (if op = OpLiteral then printableRunes rune
      else if op = OpCharClass then
        decide (rune.length % 2 ≠ 0) || negatedClass rune || printableRunes rune
      else true) &&
    printableTreeAll sub

def printableTreeAll : List Regexp → Bool
  | [] => true
  | s :: rest => printableTree s && printableTreeAll rest

end

mutual

/-- The tree holds a begin-of-line or an end-of-line node. -/
def hasLineAnchor : Regexp → Bool
  | .mk op _ sub _ _ => decide (op = OpBeginLine ∨ op = OpEndLine) || hasLineAnchorAll sub

def hasLineAnchorAll : List Regexp → Bool
  | [] => false
  | s :: rest => hasLineAnchor s || hasLineAnchorAll rest

end

/-- Started on the content `bytes`, a run that completes ends on `bytes`
followed by bytes that all satisfy `Q`. -/
def AppendsBytes (Q : Nat → Prop)
    (run : Builder → List Nat → Option (Builder × List Nat)) : Prop :=
  ∀ (bytes : List Nat) (rnd : List Nat) (b1 : Builder) (rnd1 : List Nat),
    run (Builder.buf bytes) rnd = some (b1, rnd1) →
    ∃ w, b1 = Builder.buf (bytes ++ w) ∧ ∀ c ∈ w, Q c

/-! ## Where the newlines come from -/

/-- A text of bytes that carry a mark each, split into `k` texts of `L`. -/
def PowerMarked (L : List (Nat × Bool) → Prop) : Nat → List (Nat × Bool) → Prop
  | 0, w => w = []
  | k + 1, w => ∃ u v, w = u ++ v ∧ L u ∧ PowerMarked L k v

mutual

/-- The texts a tree can give rise to, each byte marked with the kind of node
that appended it: `true` for a begin-of-line or end-of-line node, `false` for
a node of any other kind.  An anchor node appends nothing or one newline.  A
capture, star, plus, optional, repeat, concatenation or alternation node
appends nothing itself: its text is made of the texts of the children that
are generated.  Every other node appends a text of its own. -/
def Emits : Regexp → List (Nat × Bool) → Prop
  | .mk op _ sub _ _, mw =>
    ((op = OpBeginLine ∨ op = OpEndLine) ∧ (mw = [] ∨ mw = [(10, true)])) ∨
    ((op = OpCapture ∨ op = OpQuest) ∧ (mw = [] ∨ EmitsSub sub 0 mw)) ∨
    ((op = OpStar ∨ op = OpPlus ∨ op = OpRepeat) ∧
      ∃ k, PowerMarked (fun u => EmitsSub sub 0 u) k mw) ∨
    (op = OpConcat ∧ EmitsAll sub mw) ∨
    (op = OpAlternate ∧ ∃ i, EmitsSub sub i mw) ∨
    (¬ (op = OpBeginLine ∨ op = OpEndLine ∨ op = OpCapture ∨ op = OpQuest ∨ op = OpStar ∨
        op = OpPlus ∨ op = OpRepeat ∨ op = OpConcat ∨ op = OpAlternate) ∧
      ∀ p ∈ mw, p.2 = false)

/-- The marked texts of child number `i`. -/
def EmitsSub : List Regexp → Nat → List (Nat × Bool) → Prop
  | [], _, _ => False
  | s :: _, 0, mw => Emits s mw
  | _ :: rest, i + 1, mw => EmitsSub rest i mw

/-- The marked texts of all the children, one after the other. -/
def EmitsAll : List Regexp → List (Nat × Bool) → Prop
  | [], mw => mw = []
  | s :: rest, mw => ∃ u v, mw = u ++ v ∧ Emits s u ∧ EmitsAll rest v

end

/-- Started on the content `bytes`, a run that completes ends on `bytes`
followed by the bytes of a marked text of `L` in which every byte marked as
appended by an anchor node is a newline and every other byte is printable
ASCII. -/
def AppendsMarked (L : List (Nat × Bool) → Prop)
    (run : Builder → List Nat → Option (Builder × List Nat)) : Prop :=
  ∀ (bytes : List Nat) (rnd : List Nat) (b1 : Builder) (rnd1 : List Nat),
    run (Builder.buf bytes) rnd = some (b1, rnd1) →
    ∃ mw, L mw ∧ b1 = Builder.buf (bytes ++ mw.map Prod.fst) ∧
      ∀ p ∈ mw, (p.2 = true → p.1 = 10) ∧ (p.2 = false → printable p.1)

/-! # Theorems -/

/-! ## The branches of `GenerateMatch`, one equation per operator kind -/

theorem GenerateMatch_emptyMatch (rune : List Int) (sub : List Regexp) (mn mx ml : Int)
    (b : Builder) (rnd : List Nat) :
    GenerateMatch (.mk OpEmptyMatch rune sub mn mx) ml b rnd =
      (b.WriteString []).map (fun b1 => (b1, rnd)) := by
  rw [GenerateMatch]; rfl

theorem GenerateMatch_literal (rune : List Int) (sub : List Regexp) (mn mx ml : Int)
    (b : Builder) (rnd : List Nat) :
    GenerateMatch (.mk OpLiteral rune sub mn mx) ml b rnd =
      (writeRunes b rune).map (fun b1 => (b1, rnd)) := by
  rw [GenerateMatch]; rfl

theorem GenerateMatch_charClass (rune : List Int) (sub : List Regexp) (mn mx ml : Int)
    (b : Builder) (rnd : List Nat) :
    GenerateMatch (.mk OpCharClass rune sub mn mx) ml b rnd =
      if rune.length % 2 ≠ 0 then
        (b.WriteString (bytesOf "[invalid char class]")).map (fun b1 => (b1, rnd))
      else
        match rune.head?, rune.getLast? with
        | some first, some last =>
          if first = 0 ∧ last = MaxRune then
            writeSample (asciiExcluding (charsetOf rune)) b rnd
          else
            writeSample (charsetOf rune) b rnd
        | _, _ => none := by
  rw [GenerateMatch]; rfl

theorem GenerateMatch_anyChar (op : Nat) (hop : op = OpAnyCharNotNL ∨ op = OpAnyChar)
    (rune : List Int) (sub : List Regexp) (mn mx ml : Int) (b : Builder) (rnd : List Nat) :
    GenerateMatch (.mk op rune sub mn mx) ml b rnd = writeSample (asciiExcluding []) b rnd := by
  rcases hop with h | h <;> subst h <;> rw [GenerateMatch] <;> rfl

theorem GenerateMatch_capture (rune : List Int) (sub : List Regexp) (mn mx ml : Int)
    (b : Builder) (rnd : List Nat) :
    GenerateMatch (.mk OpCapture rune sub mn mx) ml b rnd =
      sub.head?.bind (fun s =>
        if s.Op ≠ OpEmptyMatch then GenerateSub sub 0 ml b rnd else some (b, rnd)) := by
  rw [GenerateMatch]; rfl

theorem GenerateMatch_star (rune : List Int) (sub : List Regexp) (mn mx ml : Int)
    (b : Builder) (rnd : List Nat) :
    GenerateMatch (.mk OpStar rune sub mn mx) ml b rnd =
      (cryptoRandInt (wrapInt (wrapInt (ml - 0) + 1)) rnd).bind (fun p =>
        loopN (fun b1 r1 => GenerateSub sub 0 ml b1 r1) (wrapInt (0 + p.1)).toNat b p.2) := by
  rw [GenerateMatch]; rfl

theorem GenerateMatch_plus (rune : List Int) (sub : List Regexp) (mn mx ml : Int)
    (b : Builder) (rnd : List Nat) :
    GenerateMatch (.mk OpPlus rune sub mn mx) ml b rnd =
      (cryptoRandInt (wrapInt (wrapInt (ml - 1) + 1)) rnd).bind (fun p =>
        loopN (fun b1 r1 => GenerateSub sub 0 ml b1 r1) (wrapInt (1 + p.1)).toNat b p.2) := by
  rw [GenerateMatch]; rfl

theorem GenerateMatch_quest (rune : List Int) (sub : List Regexp) (mn mx ml : Int)
    (b : Builder) (rnd : List Nat) :
    GenerateMatch (.mk OpQuest rune sub mn mx) ml b rnd =
      (cryptoRandInt 0x7FFFFFFF rnd).bind (fun p =>
        if p.1 > 0x3FFFFFFF then GenerateSub sub 0 ml b p.2 else some (b, p.2)) := by
  rw [GenerateMatch]; rfl

theorem GenerateMatch_repeat (rune : List Int) (sub : List Regexp) (mn mx ml : Int)
    (b : Builder) (rnd : List Nat) :
    GenerateMatch (.mk OpRepeat rune sub mn mx) ml b rnd =
      (cryptoRandInt (wrapInt (wrapInt (mx - mn) + 1)) rnd).bind (fun p =>
        loopN (fun b1 r1 => GenerateSub sub 0 ml b1 r1) (wrapInt (mn + p.1)).toNat b p.2) := by
  rw [GenerateMatch]; rfl

theorem GenerateMatch_concat (rune : List Int) (sub : List Regexp) (mn mx ml : Int)
    (b : Builder) (rnd : List Nat) :
    GenerateMatch (.mk OpConcat rune sub mn mx) ml b rnd = GenerateAll sub ml b rnd := by
  rw [GenerateMatch]; rfl

theorem GenerateMatch_alternate (rune : List Int) (sub : List Regexp) (mn mx ml : Int)
    (b : Builder) (rnd : List Nat) :
    GenerateMatch (.mk OpAlternate rune sub mn mx) ml b rnd =
      (cryptoRandInt ((sub.length : Int) - 1) rnd).bind (fun p =>
        GenerateSub sub p.1.toNat ml b p.2) := by
  rw [GenerateMatch]; rfl



theorem GenerateMatch_noMatch (rune : List Int) (sub : List Regexp) (mn mx ml : Int)
    (b : Builder) (rnd : List Nat) :
    GenerateMatch (.mk OpNoMatch rune sub mn mx) ml b rnd =
      (b.WriteString (bytesOf "<No Match operator is unsupported>")).map
        (fun b1 => (b1, rnd)) := by
  rw [GenerateMatch]; rfl

theorem GenerateMatch_line (op : Nat) (hop : op = OpBeginLine ∨ op = OpEndLine)
    (rune : List Int) (sub : List Regexp) (mn mx ml : Int) (b : Builder) (rnd : List Nat) :
    GenerateMatch (.mk op rune sub mn mx) ml b rnd =
      b.Len.bind (fun n =>
        if n > 0 then (b.WriteByte 10).map (fun b1 => (b1, rnd)) else some (b, rnd)) := by
  rcases hop with h | h <;> subst h <;> rw [GenerateMatch] <;> rfl

theorem GenerateMatch_beginText (rune : List Int) (sub : List Regexp) (mn mx ml : Int)
    (b : Builder) (rnd : List Nat) :
    GenerateMatch (.mk OpBeginText rune sub mn mx) ml b rnd =
      b.Len.bind (fun n =>
        if n > 0 then
          (b.WriteString (bytesOf
            "<Invalid position of OpBeginText. Needs to be at the start of expression>")).map
            (fun b1 => (b1, rnd))
        else some (b, rnd)) := by
  rw [GenerateMatch]; rfl

theorem GenerateMatch_endText (rune : List Int) (sub : List Regexp) (mn mx ml : Int)
    (b : Builder) (rnd : List Nat) :
    GenerateMatch (.mk OpEndText rune sub mn mx) ml b rnd = some (b, rnd) := by
  rw [GenerateMatch]; rfl

theorem GenerateMatch_wordBoundary (op : Nat) (hop : op = OpWordBoundary ∨ op = OpNoWordBoundary)
    (rune : List Int) (sub : List Regexp) (mn mx ml : Int) (b : Builder) (rnd : List Nat) :
    GenerateMatch (.mk op rune sub mn mx) ml b rnd =
      (b.WriteString (bytesOf "<Word boundary operators are unsupported>")).map
        (fun b1 => (b1, rnd)) := by
  rcases hop with h | h <;> subst h <;> rw [GenerateMatch] <;> rfl

theorem GenerateMatch_default (op : Nat) (hop : op = 0 ∨ 20 ≤ op)
    (rune : List Int) (sub : List Regexp) (mn mx ml : Int) (b : Builder) (rnd : List Nat) :
    GenerateMatch (.mk op rune sub mn mx) ml b rnd =
      (b.WriteString (bytesOf "<invalid op" ++ bytesOf (Nat.repr op) ++ bytesOf ">")).map
        (fun b1 => (b1, rnd)) := by
  rw [GenerateMatch]
  simp only [OpNoMatch, OpEmptyMatch, OpLiteral, OpCharClass, OpAnyCharNotNL, OpAnyChar,
    OpBeginLine, OpEndLine, OpBeginText, OpEndText, OpWordBoundary, OpNoWordBoundary,
    OpCapture, OpStar, OpPlus, OpQuest, OpRepeat, OpConcat, OpAlternate]
  rw [if_neg (by omega), if_neg (by omega), if_neg (by omega), if_neg (by omega),
    if_neg (by omega), if_neg (by omega), if_neg (by omega), if_neg (by omega),
    if_neg (by omega), if_neg (by omega), if_neg (by omega), if_neg (by omega),
    if_neg (by omega), if_neg (by omega), if_neg (by omega)]

/-- Every operator kind falls in one of the branches of the switch. -/
theorem op_cases (op : Nat) :
    op = OpNoMatch ∨ op = OpEmptyMatch ∨ op = OpLiteral ∨ op = OpCharClass ∨
    (op = OpAnyCharNotNL ∨ op = OpAnyChar) ∨ (op = OpBeginLine ∨ op = OpEndLine) ∨
    op = OpBeginText ∨ op = OpEndText ∨ (op = OpWordBoundary ∨ op = OpNoWordBoundary) ∨
    op = OpCapture ∨ op = OpStar ∨ op = OpPlus ∨ op = OpQuest ∨ op = OpRepeat ∨
    op = OpConcat ∨ op = OpAlternate ∨ (op = 0 ∨ 20 ≤ op) := by
  simp only [OpNoMatch, OpEmptyMatch, OpLiteral, OpCharClass, OpAnyCharNotNL, OpAnyChar,
    OpBeginLine, OpEndLine, OpBeginText, OpEndText, OpWordBoundary, OpNoWordBoundary,
    OpCapture, OpStar, OpPlus, OpQuest, OpRepeat, OpConcat, OpAlternate]
  omega

/-! ## The sampler, UTF-8 and the character sets -/

theorem cryptoRandInt_some {max : Int} {rnd : List Nat} {p : Int × List Nat}
    (h : cryptoRandInt max rnd = some p) :
    0 < max ∧ 0 ≤ p.1 ∧ p.1 < max ∧ p.2 = rnd.tail := by
  unfold cryptoRandInt at h
  split at h
  · simp at h
  · rename_i hmax
    have hpos : 0 < max := by omega
    simp only [Option.some.injEq] at h
    subst h
    exact ⟨hpos, Int.emod_nonneg _ (by omega), Int.emod_lt_of_pos _ hpos, rfl⟩

theorem encodeRune_ascii {r : Int} (h0 : 0 ≤ r) (h1 : r ≤ 127) :
    encodeRune r = [r.toNat] := by
  unfold encodeRune
  rw [if_neg (by omega)]
  simp only
  rw [if_pos (by omega)]

theorem mem_encodeRune_ascii {i : Nat} {r : Int} (hi : i < 128) (h : i ∈ encodeRune r) :
    r = (i : Int) := by
  unfold encodeRune at h
  split at h
  · simp at h; omega
  · simp only at h
    split at h
    · simp at h; omega
    · split at h
      · simp at h; omega
      · split at h
        · simp at h; omega
        · simp at h; omega

theorem wrapInt_of_range {x : Int} (h1 : -9223372036854775808 ≤ x)
    (h2 : x ≤ 9223372036854775807) : wrapInt x = x := by
  unfold wrapInt
  omega

theorem wrapInt_range (x : Int) :
    -9223372036854775808 ≤ wrapInt x ∧ wrapInt x ≤ 9223372036854775807 := by
  unfold wrapInt
  omega

theorem wrapRune_of_range {x : Int} (h1 : -2147483648 ≤ x) (h2 : x ≤ 2147483647) :
    wrapRune x = x := by
  unfold wrapRune
  omega

theorem wrapRune_le {x : Int} (h1 : -2147483648 ≤ x) : wrapRune x ≤ x := by
  unfold wrapRune
  omega

theorem mem_expandPair {lo hi r : Int} (hhi : -2147483649 ≤ hi) (h : r ∈ expandPair lo hi) :
    lo ≤ r ∧ r ≤ hi := by
  unfold expandPair at h
  split at h
  · obtain ⟨k, hk, hkr⟩ := List.mem_map.mp h
    rw [List.mem_range] at hk
    have hw : wrapRune (hi + 1) ≤ hi + 1 := wrapRune_le (by omega)
    have hk2 : (k : Int) < wrapRune (hi + 1) - lo := by
      by_contra hcon
      have h0 : (wrapRune (hi + 1) - lo).toNat ≤ k := Int.toNat_le.mpr (by omega)
      omega
    omega
  · simp at h
    omega

theorem mem_expandPair_iff {lo hi r : Int} (hhi : -2147483649 ≤ hi ∧ hi ≤ 2147483646) :
    r ∈ expandPair lo hi ↔ lo ≤ r ∧ r ≤ hi := by
  constructor
  · exact mem_expandPair hhi.1
  · intro h
    have hw : wrapRune (hi + 1) = hi + 1 := wrapRune_of_range (by omega) (by omega)
    unfold expandPair
    split
    · refine List.mem_map.mpr ⟨(r - lo).toNat, ?_, ?_⟩
      · rw [List.mem_range, hw]
        have h1 : ((r - lo).toNat : Int) = r - lo := Int.toNat_of_nonneg (by omega)
        have h2 : ((hi + 1 - lo).toNat : Int) = hi + 1 - lo := Int.toNat_of_nonneg (by omega)
        omega
      · have h1 : ((r - lo).toNat : Int) = r - lo := Int.toNat_of_nonneg (by omega)
        omega
    · simp
      omega

theorem mem_expandRunes_iff : ∀ (rune : List Int)
    (_ : ∀ x ∈ rune, -2147483649 ≤ x ∧ x ≤ 2147483646) (r : Int),
    r ∈ expandRunes rune ↔ inClass rune r = true
  | [], _, r => by simp [expandRunes, inClass]
  | [_], _, r => by simp [expandRunes, inClass]
  | lo :: hi :: rest, ht, r => by
    have hhi := ht hi (by simp)
    have hrest : ∀ x ∈ rest, -2147483649 ≤ x ∧ x ≤ 2147483646 :=
      fun x hx => ht x (by simp [hx])
    simp only [expandRunes, List.mem_append, inClass, Bool.or_eq_true, decide_eq_true_eq,
      mem_expandPair_iff hhi, mem_expandRunes_iff rest hrest r]

theorem mem_expandRunes : ∀ (rune : List Int) (_ : ∀ x ∈ rune, -2147483649 ≤ x) (r : Int),
    r ∈ expandRunes rune → inClass rune r = true
  | [], _, r, h => by simp [expandRunes] at h
  | [_], _, r, h => by simp [expandRunes] at h
  | lo :: hi :: rest, ht, r, h => by
    have hhi := ht hi (by simp)
    have hrest : ∀ x ∈ rest, -2147483649 ≤ x := fun x hx => ht x (by simp [hx])
    simp only [expandRunes, List.mem_append] at h
    simp only [inClass, Bool.or_eq_true, decide_eq_true_eq]
    rcases h with h | h
    · exact Or.inl (mem_expandPair hhi h)
    · exact Or.inr (mem_expandRunes rest hrest r h)

theorem mem_charsetOf_ascii {rune : List Int} {i : Nat} (hi : i < 128)
    (h : i ∈ charsetOf rune) : (i : Int) ∈ expandRunes rune := by
  simp only [charsetOf, List.mem_flatMap] at h
  obtain ⟨r, hr, hir⟩ := h
  have := mem_encodeRune_ascii hi hir
  subst this
  exact hr

theorem asciiFold_eq (xchars : List Nat) (l : List Nat) (hl : ∀ i ∈ l, i ≤ 127)
    (acc : List Nat) :
    l.foldl (fun res i => if ContainsRune xchars i then res ++ encodeRune i else res) acc =
      acc ++ l.filter (fun i => ContainsRune xchars i) := by
  induction l generalizing acc with
  | nil => simp
  | cons a l ih =>
    have ha : a ≤ 127 := hl a (by simp)
    have hl2 : ∀ i ∈ l, i ≤ 127 := fun i hi => hl i (by simp [hi])
    have henc : encodeRune (a : Int) = [a] := by
      rw [encodeRune_ascii (by omega) (by omega)]
      simp
    simp only [List.foldl_cons, List.filter_cons]
    by_cases hm : ContainsRune xchars a = true
    · simp [hm, ih hl2, henc]
    · simp [hm, ih hl2]

/-- What `asciiExcluding` computes: the printable characters that occur in `xchars`. -/
theorem asciiExcluding_eq_filter (xchars : List Nat) :
    asciiExcluding xchars = (List.range' 32 95).filter (fun i => decide (i ∈ xchars)) := by
  unfold asciiExcluding
  rw [asciiFold_eq xchars _ _ []]
  · simp [ContainsRune]
  · intro i hi
    simp [List.mem_range'] at hi
    omega

theorem mem_asciiExcluding {xchars : List Nat} {i : Nat} (h : i ∈ asciiExcluding xchars) :
    32 ≤ i ∧ i ≤ 126 ∧ i ∈ xchars := by
  rw [asciiExcluding_eq_filter] at h
  simp only [List.mem_filter, List.mem_range'_1, decide_eq_true_eq] at h
  exact ⟨h.1.1, by omega, h.2⟩

theorem writeSample_some {stringset : List Nat} {bytes : List Nat} {rnd : List Nat}
    {b1 : Builder} {rnd1 : List Nat}
    (h : writeSample stringset (Builder.buf bytes) rnd = some (b1, rnd1)) :
    ∃ c, c ∈ stringset ∧ b1 = Builder.buf (bytes ++ [c]) ∧ rnd1 = rnd.tail := by
  unfold writeSample at h
  simp only [Option.bind_eq_some, Option.map_eq_some'] at h
  obtain ⟨p, hp, c, hc, b2, hb2, hpair⟩ := h
  have hr := cryptoRandInt_some hp
  simp only [Builder.WriteByte, Option.some.injEq] at hb2
  simp only [Prod.mk.injEq] at hpair
  refine ⟨c, List.get?_mem hc, ?_, ?_⟩
  · rw [← hpair.1, ← hb2]
  · rw [← hpair.2, hr.2.2.2]

theorem inClass_ascii : ∀ {rune : List Int} {r : Int}, asciiClass rune = true →
    inClass rune r = true → 0 ≤ r ∧ r ≤ 127
  | [], r, _, h => by simp [inClass] at h
  | [_], r, _, h => by simp [inClass] at h
  | lo :: hi :: rest, r, ha, h => by
    simp only [asciiClass, List.all_cons, Bool.and_eq_true, decide_eq_true_eq] at ha
    simp only [inClass, Bool.or_eq_true, decide_eq_true_eq] at h
    rcases h with h | h
    · omega
    · exact @inClass_ascii rest r (by simp only [asciiClass]; exact ha.2.2) h

theorem mem_charsetOf_ascii_iff {rune : List Int} {i : Nat}
    (ht : ∀ x ∈ rune, -2147483649 ≤ x ∧ x ≤ 2147483646) (hi : i < 128) :
    i ∈ charsetOf rune ↔ inClass rune (i : Int) = true := by
  rw [← mem_expandRunes_iff rune ht]
  constructor
  · exact mem_charsetOf_ascii hi
  · intro h
    simp only [charsetOf, List.mem_flatMap]
    refine ⟨(i : Int), h, ?_⟩
    rw [encodeRune_ascii (by omega) (by omega)]
    simp

/-- The candidate set of a class recognised as negated: the printable
characters that lie in one of its range pairs (for range bounds below the
largest `int32`, where the upper bound plus one does not wrap). -/
theorem asciiExcluding_charsetOf (rune : List Int)
    (ht : ∀ x ∈ rune, -2147483649 ≤ x ∧ x ≤ 2147483646) :
    asciiExcluding (charsetOf rune) =
      (List.range' 32 95).filter (fun (i : Nat) => inClass rune (i : Int)) := by
  rw [asciiExcluding_eq_filter]
  apply List.filter_congr
  intro i hi
  rw [List.mem_range'_1] at hi
  have := @mem_charsetOf_ascii_iff rune i ht (by omega)
  by_cases h : i ∈ charsetOf rune
  · simp [h, this.mp h]
  · have h2 : inClass rune (i : Int) = false := by
      cases hc : inClass rune (i : Int) with
      | false => rfl
      | true => exact absurd (this.mpr hc) h
    simp [h, h2]

/-! ## UTF-8 text determines its valid code points -/

theorem encodeRune_valid {a : Int} (ha : validRune a = true) :
    ∃ u : Nat, a = (u : Int) ∧ u ≤ 0x10FFFF ∧ encodeRune a =
      (if u ≤ 0x7F then [u]
      else if u ≤ 0x7FF then [0xC0 + u / 64, 0x80 + u % 64]
      else if u ≤ 0xFFFF then [0xE0 + u / 4096, 0x80 + u / 64 % 64, 0x80 + u % 64]
      else [0xF0 + u / 262144, 0x80 + u / 4096 % 64, 0x80 + u / 64 % 64, 0x80 + u % 64]) := by
  simp only [validRune, decide_eq_true_eq] at ha
  refine ⟨a.toNat, (Int.toNat_of_nonneg ha.1).symm, by omega, ?_⟩
  unfold encodeRune
  rw [if_neg (by omega)]

theorem encodeRune_prefix_free {a b : Int} (ha : validRune a = true) (hb : validRune b = true)
    (x y : List Nat) (h : encodeRune a ++ x = encodeRune b ++ y) : a = b ∧ x = y := by
  obtain ⟨u, rfl, hu, eu⟩ := encodeRune_valid ha
  obtain ⟨v, rfl, hv, ev⟩ := encodeRune_valid hb
  rw [eu, ev] at h
  have key : ∀ (p q : Nat) (l1 l2 : List Nat), p :: l1 = q :: l2 → p = q ∧ l1 = l2 :=
    fun p q l1 l2 hl => by simpa using hl
  split_ifs at h <;> simp only [List.cons_append, List.nil_append] at h
  all_goals
    have h1 := (key _ _ _ _ h).1
    have h2 := (key _ _ _ _ h).2
  all_goals first
    | (exfalso; omega)
    | exact ⟨by omega, h2⟩
    | (have h3 := (key _ _ _ _ h2).1
       have h4 := (key _ _ _ _ h2).2
       first
        | exact ⟨by omega, h4⟩
        | (have h5 := (key _ _ _ _ h4).1
           have h6 := (key _ _ _ _ h4).2
           first
            | exact ⟨by omega, h6⟩
            | (have h7 := (key _ _ _ _ h6).1
               have h8 := (key _ _ _ _ h6).2
               exact ⟨by omega, h8⟩)))

theorem encodeRune_ne_nil {a : Int} : encodeRune a ≠ [] := by
  unfold encodeRune
  dsimp only
  split_ifs <;> exact List.cons_ne_nil _ _

theorem encodeRunes_injective : ∀ (u v : List Int), (∀ c ∈ u, validRune c = true) →
    (∀ c ∈ v, validRune c = true) → encodeRunes u = encodeRunes v → u = v
  | [], [], _, _, _ => rfl
  | [], b :: v, _, _, h => by
    simp [encodeRunes, encodeRune_ne_nil] at h
  | a :: u, [], _, _, h => by
    simp [encodeRunes, encodeRune_ne_nil] at h
  | a :: u, b :: v, hu, hv, h => by
    have h2 : encodeRune a ++ encodeRunes u = encodeRune b ++ encodeRunes v := by
      simpa [encodeRunes] using h
    obtain ⟨hab, hrest⟩ := encodeRune_prefix_free (hu a (by simp)) (hv b (by simp)) _ _ h2
    rw [hab, encodeRunes_injective u v (fun c hc => hu c (by simp [hc]))
      (fun c hc => hv c (by simp [hc])) hrest]

/-! ## Runs on a builder that holds content -/

theorem encodeRunes_append (u v : List Int) :
    encodeRunes (u ++ v) = encodeRunes u ++ encodeRunes v := by
  simp [encodeRunes]

theorem writeRunes_buf (rs : List Int) (bytes : List Nat) :
    writeRunes (Builder.buf bytes) rs = some (Builder.buf (bytes ++ encodeRunes rs)) := by
  induction rs generalizing bytes with
  | nil => simp [writeRunes, encodeRunes]
  | cons r rs ih =>
    simp [writeRunes, Builder.WriteRune, ih, encodeRunes]

/-- Literals and concatenations: the run on a tree and on a list of children. -/
theorem litConcat_run (re : Regexp) :
    litConcat re = true → ∀ (moreLimit : Int) (bytes : List Nat) (rnd : List Nat),
      GenerateMatch re moreLimit (Builder.buf bytes) rnd =
        some (Builder.buf (bytes ++ encodeRunes (literalText re)), rnd) := by
  refine @Regexp.rec
    (fun re => litConcat re = true → ∀ (moreLimit : Int) (bytes : List Nat) (rnd : List Nat),
      GenerateMatch re moreLimit (Builder.buf bytes) rnd =
        some (Builder.buf (bytes ++ encodeRunes (literalText re)), rnd))
    (fun subs => litConcatAll subs = true →
      ∀ (moreLimit : Int) (bytes : List Nat) (rnd : List Nat),
      GenerateAll subs moreLimit (Builder.buf bytes) rnd =
        some (Builder.buf (bytes ++ encodeRunes (literalTextAll subs)), rnd))
    ?_ ?_ ?_ re
  · intro op rune sub mn mx ih h ml bytes rnd
    by_cases hop : op = OpLiteral
    · subst hop
      simp [GenerateMatch, literalText, writeRunes_buf]
    · have h2 : op = OpConcat ∧ litConcatAll sub = true := by
        simpa [litConcat, hop] using h
      obtain ⟨hc, hs⟩ := h2
      subst hc
      simp [GenerateMatch, literalText, ih hs]
  · intro _ ml bytes rnd
    simp [GenerateAll, literalTextAll, encodeRunes]
  · intro head tail ih1 ih2 h ml bytes rnd
    have h2 : litConcat head = true ∧ litConcatAll tail = true := by
      simpa [litConcatAll] using h
    simp [GenerateAll, literalTextAll, ih1 h2.1, ih2 h2.2, encodeRunes_append]

theorem loopN_sound {L : List Int → Prop}
    {body : Builder → List Nat → Option (Builder × List Nat)}
    (hbody : AppendsWordOf L body) (k : Nat) : AppendsWordOf (Power L k) (loopN body k) := by
  induction k with
  | zero =>
    intro bytes rnd b1 rnd1 h
    simp only [loopN, Option.some.injEq, Prod.mk.injEq] at h
    exact ⟨[], rfl, by simp, by simp [encodeRunes, ← h.1]⟩
  | succ k ih =>
    intro bytes rnd b1 rnd1 h
    simp only [loopN, Option.bind_eq_some] at h
    obtain ⟨⟨b2, rnd2⟩, h1, h2⟩ := h
    obtain ⟨u, hu, hvu, rfl⟩ := hbody bytes rnd b2 rnd2 h1
    obtain ⟨v, hv, hvv, rfl⟩ := ih _ _ _ _ h2
    refine ⟨u ++ v, ⟨u, v, rfl, hu, hv⟩, ?_, by simp [encodeRunes_append]⟩
    intro c hc
    rcases List.mem_append.mp hc with hc | hc
    · exact hvu c hc
    · exact hvv c hc

theorem supported_sound_aux (re : Regexp) :
    Supported re = true → ∀ moreLimit : Int,
      AppendsWordOf (Matches re) (GenerateMatch re moreLimit) := by
  refine @Regexp.rec
    (fun re => Supported re = true → ∀ moreLimit : Int,
      AppendsWordOf (Matches re) (GenerateMatch re moreLimit))
    (fun subs => SupportedAll subs = true → ∀ moreLimit : Int,
      (∀ i : Nat, AppendsWordOf (MatchesSub subs i) (GenerateSub subs i moreLimit)) ∧
      AppendsWordOf (MatchesAll subs) (GenerateAll subs moreLimit))
    ?_ ?_ ?_ re
  · intro op rune sub mn mx ih hsup ml
    have hsub : SupportedAll sub = true := by
      simp only [Supported, Bool.and_eq_true] at hsup
      exact hsup.2
    have ihs := (ih hsub ml).1
    have iha := (ih hsub ml).2
    have hop : op = OpEmptyMatch ∨ (op = OpLiteral ∧ ∀ c ∈ rune, validRune c = true) ∨
        op = OpCapture ∨ op = OpStar ∨
        op = OpPlus ∨ op = OpQuest ∨ op = OpConcat ∨ op = OpAlternate ∨
        (op = OpRepeat ∧ 0 ≤ mn ∧ mn ≤ 9223372036854775807 ∧
          mx ≤ 9223372036854775807 ∧ -9223372036854775808 ≤ mx - mn) ∨
        (op = OpCharClass ∧ rune.length % 2 = 0 ∧
          (asciiClass rune = true ∨ (negatedClass rune = true ∧
            ∀ r ∈ rune, -2147483648 ≤ r ∧ r ≤ 2147483647))) := by
      simp only [Supported, Bool.and_eq_true, Bool.or_eq_true, decide_eq_true_eq,
        List.all_eq_true] at hsup
      tauto
    intro bytes rnd b1 rnd1 hrun
    rcases hop with h | ⟨h, hval⟩ | h | h | h | h | h | h | ⟨h, hmn, hmn2, hmx, hdiff⟩ |
      ⟨h, hlen, hcls⟩ <;> subst h
    · -- empty match
      rw [GenerateMatch_emptyMatch] at hrun
      simp only [Builder.WriteString, Option.map_some', Option.some.injEq,
        Prod.mk.injEq] at hrun
      exact ⟨[], by simp [Matches], by simp, by simp [encodeRunes, ← hrun.1]⟩
    · -- literal
      rw [GenerateMatch_literal, writeRunes_buf] at hrun
      simp only [Option.map_some', Option.some.injEq, Prod.mk.injEq] at hrun
      exact ⟨rune, by simp [Matches], hval, by simp [← hrun.1]⟩
    · -- capture
      rw [GenerateMatch_capture] at hrun
      cases sub with
      | nil => simp at hrun
      | cons s0 rest =>
        simp only [List.head?_cons, Option.some_bind] at hrun
        split at hrun
        · obtain ⟨w, hw, hv, hb⟩ := ihs 0 bytes rnd b1 rnd1 hrun
          exact ⟨w, by simp only [Matches]; simp; exact hw, hv, hb⟩
        · rename_i hemp
          simp only [Option.some.injEq, Prod.mk.injEq] at hrun
          refine ⟨[], ?_, by simp, by simp [encodeRunes, ← hrun.1]⟩
          simp only [Matches]
          simp
          simp only [MatchesSub]
          cases s0 with
          | mk op2 r2 s2 mn2 mx2 =>
            simp only [Regexp.Op, ne_eq, not_not] at hemp
            subst hemp
            simp [Matches]
    · -- star
      rw [GenerateMatch_star] at hrun
      simp only [Option.bind_eq_some] at hrun
      obtain ⟨⟨p1, p2⟩, hp, hloop⟩ := hrun
      obtain ⟨w, hw, hv, hb⟩ := loopN_sound (ihs 0) _ bytes p2 b1 rnd1 hloop
      exact ⟨w, by simp only [Matches]; simp; exact ⟨_, hw⟩, hv, hb⟩
    · -- plus
      rw [GenerateMatch_plus] at hrun
      simp only [Option.bind_eq_some] at hrun
      obtain ⟨⟨p1, p2⟩, hp, hloop⟩ := hrun
      have hr := cryptoRandInt_some hp
      obtain ⟨w, hw, hv, hb⟩ := loopN_sound (ihs 0) _ bytes p2 b1 rnd1 hloop
      refine ⟨w, ?_, hv, hb⟩
      simp only [Matches]
      simp
      refine ⟨_, ?_, hw⟩
      have hB := wrapInt_range (wrapInt (ml - 1) + 1)
      simp only at hr ⊢
      rw [wrapInt_of_range (by omega) (by omega)]
      omega
    · -- optional
      rw [GenerateMatch_quest] at hrun
      simp only [Option.bind_eq_some] at hrun
      obtain ⟨⟨p1, p2⟩, hp, hrun⟩ := hrun
      split at hrun
      · obtain ⟨w, hw, hv, hb⟩ := ihs 0 bytes p2 b1 rnd1 hrun
        exact ⟨w, by simp only [Matches]; simp; exact Or.inr hw, hv, hb⟩
      · simp only [Option.some.injEq, Prod.mk.injEq] at hrun
        exact ⟨[], by simp [Matches], by simp, by simp [encodeRunes, ← hrun.1]⟩
    · -- concatenation
      rw [GenerateMatch_concat] at hrun
      obtain ⟨w, hw, hv, hb⟩ := iha bytes rnd b1 rnd1 hrun
      exact ⟨w, by simp only [Matches]; simp; exact hw, hv, hb⟩
    · -- alternation
      rw [GenerateMatch_alternate] at hrun
      simp only [Option.bind_eq_some] at hrun
      obtain ⟨⟨p1, p2⟩, hp, hrun⟩ := hrun
      obtain ⟨w, hw, hv, hb⟩ := ihs _ bytes p2 b1 rnd1 hrun
      exact ⟨w, by simp only [Matches]; simp; exact ⟨_, hw⟩, hv, hb⟩
    · -- repeat
      rw [GenerateMatch_repeat] at hrun
      simp only [Option.bind_eq_some] at hrun
      obtain ⟨⟨p1, p2⟩, hp, hloop⟩ := hrun
      have hr := cryptoRandInt_some hp
      obtain ⟨w, hw, hv, hb⟩ := loopN_sound (ihs 0) _ bytes p2 b1 rnd1 hloop
      refine ⟨w, ?_, hv, hb⟩
      simp only at hr
      rw [wrapInt_of_range (x := mx - mn) (by omega) (by omega)] at hr
      have hB : wrapInt (mx - mn + 1) = mx - mn + 1 := by
        have h0 := hr.1
        unfold wrapInt at h0 ⊢
        omega
      rw [hB] at hr
      have hcount : wrapInt (mn + p1) = mn + p1 := wrapInt_of_range (by omega) (by omega)
      simp only [Matches]
      simp
      refine ⟨_, ?_, ?_, hw⟩
      · rw [hcount]
        omega
      · right
        rw [hcount]
        omega
    · -- character class
      rw [GenerateMatch_charClass] at hrun
      rw [if_neg (by omega)] at hrun
      split at hrun
      · rename_i first last hfirst hlast
        split at hrun
        · -- recognised as negated
          rename_i hneg
          have htyped : ∀ x ∈ rune, -2147483649 ≤ x := by
            rcases hcls with h | h
            · intro x hx
              have := List.all_eq_true.mp h x hx
              simp only [decide_eq_true_eq] at this
              omega
            · intro x hx
              have := h.2 x hx
              omega
          obtain ⟨c, hc, hb, -⟩ := writeSample_some hrun
          have hc2 := mem_asciiExcluding hc
          have hc3 := mem_expandRunes _ htyped _ (mem_charsetOf_ascii (by omega) hc2.2.2)
          refine ⟨[(c : Int)], ?_, ?_, ?_⟩
          · simp [Matches]; exact hc3
          · intro x hx
            simp only [List.mem_singleton] at hx
            subst hx
            simp only [validRune, decide_eq_true_eq]
            omega
          · rw [hb]
            simp [encodeRunes, @encodeRune_ascii (c : Int) (by omega) (by omega)]
        · -- a plain class
          rename_i hneg
          have hascii : asciiClass rune = true := by
            rcases hcls with h | h
            · exact h
            · exfalso
              apply hneg
              have h1 := h.1
              simp only [negatedClass, decide_eq_true_eq, hfirst, hlast, Option.some.injEq] at h1
              exact h1
          have htyped : ∀ x ∈ rune, -2147483649 ≤ x := by
            intro x hx
            have := List.all_eq_true.mp hascii x hx
            simp only [decide_eq_true_eq] at this
            omega
          obtain ⟨c, hc, hb, -⟩ := writeSample_some hrun
          simp only [charsetOf, List.mem_flatMap] at hc
          obtain ⟨r, hr, hcr⟩ := hc
          have hin := mem_expandRunes _ htyped _ hr
          have hbound : 0 ≤ r ∧ r ≤ 127 := inClass_ascii hascii hin
          rw [encodeRune_ascii hbound.1 hbound.2] at hcr
          simp only [List.mem_singleton] at hcr
          refine ⟨[r], ?_, ?_, ?_⟩
          · simp [Matches]; exact hin
          · intro x hx
            simp only [List.mem_singleton] at hx
            subst hx
            simp only [validRune, decide_eq_true_eq]
            omega
          · rw [hb, hcr]
            simp [encodeRunes, encodeRune_ascii hbound.1 hbound.2]
      · simp at hrun
  · intro _ ml
    refine ⟨?_, ?_⟩
    · intro i bytes rnd b1 rnd1 h
      simp [GenerateSub] at h
    · intro bytes rnd b1 rnd1 h
      simp [GenerateAll] at h
      exact ⟨[], by simp [MatchesAll], by simp, by simp [encodeRunes, ← h.1]⟩
  · intro head tail ih1 ih2 hsup ml
    have h2 : Supported head = true ∧ SupportedAll tail = true := by
      simpa [SupportedAll] using hsup
    refine ⟨?_, ?_⟩
    · intro i
      cases i with
      | zero =>
        intro bytes rnd b1 rnd1 h
        simp only [GenerateSub] at h
        obtain ⟨w, hw, hv, hb⟩ := ih1 h2.1 ml bytes rnd b1 rnd1 h
        exact ⟨w, by simp only [MatchesSub]; exact hw, hv, hb⟩
      | succ i =>
        intro bytes rnd b1 rnd1 h
        simp only [GenerateSub] at h
        obtain ⟨w, hw, hv, hb⟩ := (ih2 h2.2 ml).1 i bytes rnd b1 rnd1 h
        exact ⟨w, by simp only [MatchesSub]; exact hw, hv, hb⟩
    · intro bytes rnd b1 rnd1 h
      simp only [GenerateAll, Option.bind_eq_some] at h
      obtain ⟨⟨b2, rnd2⟩, hh, ht⟩ := h
      obtain ⟨u, hu, hvu, rfl⟩ := ih1 h2.1 ml bytes rnd b2 rnd2 hh
      obtain ⟨v, hv, hvv, hb⟩ := (ih2 h2.2 ml).2 _ _ _ _ ht
      refine ⟨u ++ v, by simp only [MatchesAll]; exact ⟨u, v, rfl, hu, hv⟩, ?_,
        by simp [hb, encodeRunes_append]⟩
      intro c hc
      rcases List.mem_append.mp hc with hc | hc
      · exact hvu c hc
      · exact hvv c hc

/-! ## The nil builder -/

theorem loopN_nil {body : Builder → List Nat → Option (Builder × List Nat)}
    (hbody : ∀ rnd b1 rnd1, body Builder.nil rnd = some (b1, rnd1) → b1 = Builder.nil)
    (k : Nat) :
    ∀ rnd b1 rnd1, loopN body k Builder.nil rnd = some (b1, rnd1) → b1 = Builder.nil := by
  induction k with
  | zero =>
    intro rnd b1 rnd1 h
    simp only [loopN, Option.some.injEq, Prod.mk.injEq] at h
    exact h.1.symm
  | succ k ih =>
    intro rnd b1 rnd1 h
    simp only [loopN, Option.bind_eq_some] at h
    obtain ⟨⟨b2, rnd2⟩, h1, h2⟩ := h
    have := hbody rnd b2 rnd2 h1
    subst this
    exact ih _ _ _ h2

theorem writeSample_nil (stringset : List Nat) (rnd : List Nat) :
    writeSample stringset Builder.nil rnd = none := by
  unfold writeSample
  cases cryptoRandInt ((stringset.length : Int) - 1) rnd with
  | none => rfl
  | some p =>
    simp only [Option.some_bind]
    cases stringset.get? p.1.toNat with
    | none => rfl
    | some c => rfl

/-- A run of `GenerateMatch` on the nil builder that does not panic leaves the
builder nil. -/
theorem GenerateMatch_nil (re : Regexp) :
    ∀ (moreLimit : Int) (rnd : List Nat) (b1 : Builder) (rnd1 : List Nat),
      GenerateMatch re moreLimit Builder.nil rnd = some (b1, rnd1) → b1 = Builder.nil := by
  refine @Regexp.rec
    (fun re => ∀ (moreLimit : Int) (rnd : List Nat) (b1 : Builder) (rnd1 : List Nat),
      GenerateMatch re moreLimit Builder.nil rnd = some (b1, rnd1) → b1 = Builder.nil)
    (fun subs => ∀ (moreLimit : Int),
      (∀ (i : Nat) (rnd : List Nat) (b1 : Builder) (rnd1 : List Nat),
        GenerateSub subs i moreLimit Builder.nil rnd = some (b1, rnd1) → b1 = Builder.nil) ∧
      (∀ (rnd : List Nat) (b1 : Builder) (rnd1 : List Nat),
        GenerateAll subs moreLimit Builder.nil rnd = some (b1, rnd1) → b1 = Builder.nil))
    ?_ ?_ ?_ re
  · intro op rune sub mn mx ih ml rnd b1 rnd1 h
    have ihs := (ih ml).1
    have iha := (ih ml).2
    rcases op_cases op with hop | hop | hop | hop | hop | hop | hop | hop | hop | hop | hop |
      hop | hop | hop | hop | hop | hop
    · subst hop
      rw [GenerateMatch_noMatch] at h
      simp [Builder.WriteString] at h
    · subst hop
      rw [GenerateMatch_emptyMatch] at h
      simp [Builder.WriteString] at h
    · subst hop
      rw [GenerateMatch_literal] at h
      cases rune with
      | nil =>
        simp only [writeRunes, Option.map_some', Option.some.injEq, Prod.mk.injEq] at h
        exact h.1.symm
      | cons r rs => simp [writeRunes, Builder.WriteRune] at h
    · subst hop
      rw [GenerateMatch_charClass] at h
      split_ifs at h
      · simp [Builder.WriteString] at h
      · split at h
        · split_ifs at h <;> simp [writeSample_nil] at h
        · simp at h
    · rw [GenerateMatch_anyChar op hop, writeSample_nil] at h
      simp at h
    · rw [GenerateMatch_line op hop] at h
      simp [Builder.Len] at h
    · subst hop
      rw [GenerateMatch_beginText] at h
      simp [Builder.Len] at h
    · subst hop
      rw [GenerateMatch_endText] at h
      simp only [Option.some.injEq, Prod.mk.injEq] at h
      exact h.1.symm
    · rw [GenerateMatch_wordBoundary op hop] at h
      simp [Builder.WriteString] at h
    · subst hop
      rw [GenerateMatch_capture] at h
      simp only [Option.bind_eq_some] at h
      obtain ⟨s, -, h⟩ := h
      split_ifs at h
      · exact ihs 0 _ _ _ h
      · simp only [Option.some.injEq, Prod.mk.injEq] at h
        exact h.1.symm
    · subst hop
      rw [GenerateMatch_star] at h
      simp only [Option.bind_eq_some] at h
      obtain ⟨p, -, h⟩ := h
      exact loopN_nil (ihs 0) _ _ _ _ h
    · subst hop
      rw [GenerateMatch_plus] at h
      simp only [Option.bind_eq_some] at h
      obtain ⟨p, -, h⟩ := h
      exact loopN_nil (ihs 0) _ _ _ _ h
    · subst hop
      rw [GenerateMatch_quest] at h
      simp only [Option.bind_eq_some] at h
      obtain ⟨p, -, h⟩ := h
      split_ifs at h
      · exact ihs 0 _ _ _ h
      · simp only [Option.some.injEq, Prod.mk.injEq] at h
        exact h.1.symm
    · subst hop
      rw [GenerateMatch_repeat] at h
      simp only [Option.bind_eq_some] at h
      obtain ⟨p, -, h⟩ := h
      exact loopN_nil (ihs 0) _ _ _ _ h
    · subst hop
      rw [GenerateMatch_concat] at h
      exact iha _ _ _ h
    · subst hop
      rw [GenerateMatch_alternate] at h
      simp only [Option.bind_eq_some] at h
      obtain ⟨p, -, h⟩ := h
      exact ihs _ _ _ _ h
    · rw [GenerateMatch_default op hop] at h
      simp [Builder.WriteString] at h
  · intro ml
    refine ⟨?_, ?_⟩
    · intro i rnd b1 rnd1 h
      simp [GenerateSub] at h
    · intro rnd b1 rnd1 h
      simp only [GenerateAll, Option.some.injEq, Prod.mk.injEq] at h
      exact h.1.symm
  · intro head tail ih1 ih2 ml
    refine ⟨?_, ?_⟩
    · intro i
      cases i with
      | zero =>
        intro rnd b1 rnd1 h
        simp only [GenerateSub] at h
        exact ih1 ml _ _ _ h
      | succ i =>
        intro rnd b1 rnd1 h
        simp only [GenerateSub] at h
        exact (ih2 ml).1 i _ _ _ h
    · intro rnd b1 rnd1 h
      simp only [GenerateAll, Option.bind_eq_some] at h
      obtain ⟨⟨b2, rnd2⟩, hh, ht⟩ := h
      have := ih1 ml _ _ _ hh
      subst this
      exact (ih2 ml).2 _ _ _ ht

/-- Go `GenerateString` panics on every tree: its builder pointer is nil. -/
theorem GenerateString_none (re : Regexp) (moreLimit : Int) (rnd : List Nat) :
    GenerateString re moreLimit rnd = none := by
  unfold GenerateString
  cases h : GenerateMatch re moreLimit Builder.nil rnd with
  | none => rfl
  | some p =>
    obtain ⟨b1, rnd1⟩ := p
    have := GenerateMatch_nil re moreLimit rnd b1 rnd1 h
    subst this
    rfl

/-! ## Repetition of a literal -/

theorem repeatText_succ_right (s : List Nat) (k : Nat) :
    repeatText s (k + 1) = repeatText s k ++ s := by
  induction k with
  | zero => simp [repeatText]
  | succ k ih =>
    show s ++ repeatText s (k + 1) = (s ++ repeatText s k) ++ s
    rw [ih, List.append_assoc]

theorem loopN_literal (s : List Int) (sub2 rest : List Regexp) (mn2 mx2 ml : Int) (k : Nat) :
    ∀ (bytes : List Nat) (rnd : List Nat),
      loopN (fun b1 r1 => GenerateSub (.mk OpLiteral s sub2 mn2 mx2 :: rest) 0 ml b1 r1) k
        (Builder.buf bytes) rnd =
      some (Builder.buf (bytes ++ repeatText (encodeRunes s) k), rnd) := by
  have hbody : ∀ (bytes : List Nat) (rnd : List Nat),
      GenerateSub (.mk OpLiteral s sub2 mn2 mx2 :: rest) 0 ml (Builder.buf bytes) rnd =
        some (Builder.buf (bytes ++ encodeRunes s), rnd) := by
    intro bytes rnd
    rw [GenerateSub, GenerateMatch_literal, writeRunes_buf]
    rfl
  induction k with
  | zero => intro bytes rnd; simp [loopN, repeatText]
  | succ k ih =>
    intro bytes rnd
    simp only [loopN, hbody, Option.some_bind, ih, repeatText, List.append_assoc]

theorem writeSample_buf (stringset : List Nat) (h : 2 ≤ stringset.length)
    (bytes : List Nat) (rnd : List Nat) :
    ∃ c, c ∈ stringset.dropLast ∧
      writeSample stringset (Builder.buf bytes) rnd =
        some (Builder.buf (bytes ++ [c]), rnd.tail) := by
  have hpos : (0 : Int) < (stringset.length : Int) - 1 := by omega
  have hnn : 0 ≤ (rnd.headD 0 : Int) % ((stringset.length : Int) - 1) :=
    Int.emod_nonneg _ (by omega)
  have hlt : (rnd.headD 0 : Int) % ((stringset.length : Int) - 1) <
      (stringset.length : Int) - 1 := Int.emod_lt_of_pos _ hpos
  have hidx : ((rnd.headD 0 : Int) % ((stringset.length : Int) - 1)).toNat <
      stringset.length - 1 := by
    have := Int.toNat_of_nonneg hnn
    omega
  have hidx2 : ((rnd.headD 0 : Int) % ((stringset.length : Int) - 1)).toNat <
      stringset.length := by omega
  refine ⟨stringset.get ⟨_, hidx2⟩, ?_, ?_⟩
  · rw [List.dropLast_eq_take]
    rw [List.mem_iff_get]
    refine ⟨⟨((rnd.headD 0 : Int) % ((stringset.length : Int) - 1)).toNat, ?_⟩, ?_⟩
    · simp only [List.length_take]
      omega
    · simp
  · unfold writeSample cryptoRandInt
    rw [if_neg (by omega)]
    simp only [Option.some_bind]
    rw [List.get?_eq_get hidx2]
    rfl

/-! ## The batch loop -/

/-- The loop of `GenerateStrings` never changes its counter: over a generator
that always returns, it exhausts every step budget. -/
theorem GenerateStringsLoop_stuck (g : List Nat → List Nat × List Nat) (count : Int) (i : Int)
    (hi : i < count) (fuel : Nat) :
    ∀ (result : List (List Nat)) (rnd : List Nat),
      GenerateStringsLoop (fun r => some (g r)) count fuel i result rnd = Run.outOfFuel := by
  induction fuel with
  | zero => intro result rnd; simp [GenerateStringsLoop, hi]
  | succ fuel ih =>
    intro result rnd
    simp only [GenerateStringsLoop, hi, if_true]
    exact ih _ _

/-- A draw below a positive bound followed by a counted loop: the loop runs on
the remainder of the next raw draw. -/
theorem draw_then_loop (max : Int) (hmax : 0 < max) (count : Int → Nat)
    (body : Builder → List Nat → Option (Builder × List Nat)) (b : Builder) (rnd : List Nat) :
    (cryptoRandInt max rnd).bind (fun p => loopN body (count p.1) b p.2) =
      loopN body (count ((rnd.headD 0 : Int) % max)) b rnd.tail := by
  unfold cryptoRandInt
  rw [if_neg (not_le.mpr hmax)]
  rfl

/-! ## The claims -/

/-- C1, counterexample: two trees built only from the node kinds of the claim on
which a completed run appends a text that the regular expression does not
match.  The literal node of the surrogate code point U+D800 (the tree of
`\x{D800}`) makes `WriteRune` append `EF BF BD`, the text of U+FFFD, and the
tree matches neither U+FFFD nor any other word of valid code points.  The
repeat node with `Min = 2` and `Max = -2^63` over the literal `a` draws its
count below the wrapped difference `Max - Min + 1 = 2^63 - 1` and, on the draw
0, appends `aa`, while a tree with `Max < Min` matches no word at all. -/
theorem GenerateMatch_appends_unmatched_text :
    (GenerateMatch (.mk OpLiteral [0xD800] [] 0 0) 5 (Builder.buf []) [] =
        some (Builder.buf [0xEF, 0xBF, 0xBD], []) ∧
      [0xEF, 0xBF, 0xBD] = encodeRunes [0xFFFD] ∧
      ¬ Matches (.mk OpLiteral [0xD800] [] 0 0) [0xFFFD] ∧
      ∀ w, (∀ c ∈ w, validRune c = true) → ¬ Matches (.mk OpLiteral [0xD800] [] 0 0) w) ∧
    (GenerateMatch (.mk OpRepeat [] [.mk OpLiteral [97] [] 0 0] 2 (-9223372036854775808)) 5
        (Builder.buf []) [0] = some (Builder.buf [97, 97], []) ∧
      ∀ w, ¬ Matches (.mk OpRepeat [] [.mk OpLiteral [97] [] 0 0] 2
        (-9223372036854775808)) w) := by
  refine ⟨⟨by decide, by decide, ?_, ?_⟩, by decide, ?_⟩
  · simp [Matches]
  · intro w hw hm
    have hw2 : w = [0xD800] := by simpa [Matches] using hm
    subst hw2
    exact absurd (hw 0xD800 (by simp)) (by decide)
  · intro w hm
    simp only [Matches] at hm
    simp at hm
    obtain ⟨k, hk1, hk2, -⟩ := hm
    omega

/-- C1 (amended): for a tree built only from empty-match, capture,
concatenation, alternation, star, plus, optional nodes, literal nodes of valid
code points, repeat nodes with bounds of type `int`, `Min >= 0` and a
difference `Max - Min` that does not underflow, and character-class nodes (range
pairs over ASCII, or recognised as negated), every `moreLimit`, every initial
buffer content and every sequence of draws on which `GenerateMatch` completes,
the buffer ends as its previous content followed by the UTF-8 text of a word
`w` of valid code points that the regular expression matches; `w` is the only
word of valid code points with that text. -/
theorem GenerateMatch_appends_matching_text (re : Regexp) (hre : Supported re = true)
    (moreLimit : Int) (bytes : List Nat) (rnd : List Nat) (b1 : Builder) (rnd1 : List Nat)
    (hrun : GenerateMatch re moreLimit (Builder.buf bytes) rnd = some (b1, rnd1)) :
    ∃ w, Matches re w ∧ (∀ c ∈ w, validRune c = true) ∧
      b1 = Builder.buf (bytes ++ encodeRunes w) ∧
      ∀ v, (∀ c ∈ v, validRune c = true) → encodeRunes v = encodeRunes w → v = w := by
  obtain ⟨w, hw, hv, hb⟩ := supported_sound_aux re hre moreLimit bytes rnd b1 rnd1 hrun
  exact ⟨w, hw, hv, hb, fun v hvv he => encodeRunes_injective v w hvv hv he⟩

/-- Witness of C1 on the tree of `(foo|bar)[a-c]a*`. -/
theorem GenerateMatch_appends_matching_text_witness :
    ∃ w, Matches (.mk OpConcat [] [
        .mk OpCapture [] [.mk OpAlternate [] [.mk OpLiteral [102, 111, 111] [] 0 0,
          .mk OpLiteral [98, 97, 114] [] 0 0] 0 0] 0 0,
        .mk OpCharClass [97, 99] [] 0 0,
        .mk OpStar [] [.mk OpLiteral [97] [] 0 0] 0 0] 0 0) w ∧
      (∀ c ∈ w, validRune c = true) ∧
      Builder.buf [62, 102, 111, 111, 98, 97, 97] = Builder.buf ([62] ++ encodeRunes w) ∧
      ∀ v, (∀ c ∈ v, validRune c = true) → encodeRunes v = encodeRunes w → v = w :=
  GenerateMatch_appends_matching_text _ (by decide) 5 [62] [0, 1, 2] _ [] (by decide)

/-- C2 (the code fails the claim): `GenerateString` on a literal node does not
return the literal text; it panics for every literal, every `moreLimit` and
every sequence of draws, because its builder pointer is nil. -/
theorem GenerateString_literal_panics (rune : List Int) (sub : List Regexp) (mn mx : Int)
    (moreLimit : Int) (rnd : List Nat) :
    GenerateString (.mk OpLiteral rune sub mn mx) moreLimit rnd = none :=
  GenerateString_none _ moreLimit rnd

/-- C3: on a tree made only of literal and concatenation nodes, for every
`moreLimit`, initial content and sequence of draws, `GenerateMatch` completes
and leaves the previous content followed by the UTF-8 text of the literals'
code points in left-to-right order; no draw is consumed. -/
theorem GenerateMatch_literals_in_order (re : Regexp) (hre : litConcat re = true)
    (moreLimit : Int) (bytes : List Nat) (rnd : List Nat) :
    GenerateMatch re moreLimit (Builder.buf bytes) rnd =
      some (Builder.buf (bytes ++ encodeRunes (literalText re)), rnd) :=
  litConcat_run re hre moreLimit bytes rnd

/-- Witness of C3 on the concatenation of `"ab"`, a nested concatenation of
`"c"` and `"é"`, and `"d"`. -/
theorem GenerateMatch_literals_in_order_witness :
    GenerateMatch (.mk OpConcat [] [.mk OpLiteral [97, 98] [] 0 0,
        .mk OpConcat [] [.mk OpLiteral [99] [] 0 0, .mk OpLiteral [233] [] 0 0] 0 0,
        .mk OpLiteral [100] [] 0 0] 0 0) 3 (Builder.buf [62]) [7, 8] =
      some (Builder.buf [62, 97, 98, 99, 195, 169, 100], [7, 8]) :=
  GenerateMatch_literals_in_order _ (by decide) 3 [62] [7, 8]

theorem star_ceiling_panics (s rune : List Int) (sub2 : List Regexp)
    (mn2 mx2 mn mx : Int) (b : Builder) (rnd : List Nat) :
    GenerateMatch (.mk OpStar rune [.mk OpLiteral s sub2 mn2 mx2] mn mx) 9223372036854775807
      b rnd = none := by
  rw [GenerateMatch_star]
  have hB : wrapInt (wrapInt (9223372036854775807 - 0) + 1) = -9223372036854775808 := by
    decide
  rw [hB]
  rfl

/-- C4, counterexample: at the ceiling `L = 2^63 - 1`, the largest `int`, the
tree of `a*` on the empty buffer appends nothing and returns nothing: the
bound `L - 0 + 1` of the draw wraps to `-2^63` and the sampler panics.  The
same holds for every star node over a literal, every builder and every
sequence of draws. -/
theorem GenerateMatch_star_ceiling_overflow :
    GenerateMatch (.mk OpStar [] [.mk OpLiteral [97] [] 0 0] 0 0) 9223372036854775807
      (Builder.buf []) [0] = none ∧
    wrapInt (wrapInt (9223372036854775807 - 0) + 1) = -9223372036854775808 ∧
    ∀ (s rune : List Int) (sub2 : List Regexp) (mn2 mx2 mn mx : Int) (b : Builder)
      (rnd : List Nat),
      GenerateMatch (.mk OpStar rune [.mk OpLiteral s sub2 mn2 mx2] mn mx)
        9223372036854775807 b rnd = none :=
  ⟨star_ceiling_panics _ _ _ _ _ _ _ _ _, by decide, star_ceiling_panics⟩

/-- C4 (amended): a star node with ceiling `0 <= L < 2^63 - 1`, or a plus node
with ceiling `1 <= L <= 2^63 - 1`, over a literal `s` appends, for every
sequence of draws, exactly `k` copies of the text of `s` with `min <= k <= L`
(`min` is 0 for star and 1 for plus), and consumes one draw. -/
theorem GenerateMatch_star_plus_literal (op : Nat) (L : Int)
    (hop : (op = OpStar ∧ 0 ≤ L ∧ L < 9223372036854775807) ∨
      (op = OpPlus ∧ 1 ≤ L ∧ L ≤ 9223372036854775807))
    (s rune : List Int) (sub2 : List Regexp) (mn2 mx2 mn mx : Int)
    (bytes : List Nat) (rnd : List Nat) :
    ∃ k : Nat, (if op = OpPlus then 1 else 0) ≤ k ∧ (k : Int) ≤ L ∧
      GenerateMatch (.mk op rune [.mk OpLiteral s sub2 mn2 mx2] mn mx) L
          (Builder.buf bytes) rnd =
        some (Builder.buf (bytes ++ repeatText (encodeRunes s) k), rnd.tail) := by
  rcases hop with ⟨h, hL, hL2⟩ | ⟨h, hL, hL2⟩ <;> subst h
  · have hpos : (0 : Int) < L - 0 + 1 := by omega
    have hnn := Int.emod_nonneg (rnd.headD 0 : Int) (show L - 0 + 1 ≠ 0 by omega)
    have hlt := Int.emod_lt_of_pos (rnd.headD 0 : Int) hpos
    have hB : wrapInt (wrapInt (L - 0) + 1) = L - 0 + 1 := by
      rw [wrapInt_of_range (x := L - 0) (by omega) (by omega)]
      exact wrapInt_of_range (by omega) (by omega)
    have hC : wrapInt (0 + (rnd.headD 0 : Int) % (L - 0 + 1)) =
        0 + (rnd.headD 0 : Int) % (L - 0 + 1) := wrapInt_of_range (by omega) (by omega)
    refine ⟨(0 + (rnd.headD 0 : Int) % (L - 0 + 1)).toNat, by simp, ?_, ?_⟩
    · have := Int.toNat_of_nonneg (show 0 ≤ 0 + (rnd.headD 0 : Int) % (L - 0 + 1) by omega)
      omega
    · rw [GenerateMatch_star, hB,
        draw_then_loop _ hpos (fun x => (wrapInt (0 + x)).toNat), hC]
      exact loopN_literal s sub2 [] mn2 mx2 L _ bytes rnd.tail
  · have hpos : (0 : Int) < L - 1 + 1 := by omega
    have hnn := Int.emod_nonneg (rnd.headD 0 : Int) (show L - 1 + 1 ≠ 0 by omega)
    have hlt := Int.emod_lt_of_pos (rnd.headD 0 : Int) hpos
    have hk := Int.toNat_of_nonneg (show 0 ≤ 1 + (rnd.headD 0 : Int) % (L - 1 + 1) by omega)
    have hB : wrapInt (wrapInt (L - 1) + 1) = L - 1 + 1 := by
      rw [wrapInt_of_range (x := L - 1) (by omega) (by omega)]
      exact wrapInt_of_range (by omega) (by omega)
    have hC : wrapInt (1 + (rnd.headD 0 : Int) % (L - 1 + 1)) =
        1 + (rnd.headD 0 : Int) % (L - 1 + 1) := wrapInt_of_range (by omega) (by omega)
    refine ⟨(1 + (rnd.headD 0 : Int) % (L - 1 + 1)).toNat, ?_, ?_, ?_⟩
    · simp only [if_true]
      omega
    · omega
    · rw [GenerateMatch_plus, hB,
        draw_then_loop _ hpos (fun x => (wrapInt (1 + x)).toNat), hC]
      exact loopN_literal s sub2 [] mn2 mx2 L _ bytes rnd.tail

/-- Witness of C4: `a*` with ceiling 5. -/
theorem GenerateMatch_star_plus_literal_witness :
    ((OpStar = OpStar ∧ (0 : Int) ≤ 5 ∧ (5 : Int) < 9223372036854775807) ∨
      (OpStar = OpPlus ∧ (1 : Int) ≤ 5 ∧ (5 : Int) ≤ 9223372036854775807)) ∧
    ∃ k : Nat, (if OpStar = OpPlus then 1 else 0) ≤ k ∧ (k : Int) ≤ 5 ∧
      GenerateMatch (.mk OpStar [] [.mk OpLiteral [97] [] 0 0] 0 0) 5 (Builder.buf []) [9] =
        some (Builder.buf ([] ++ repeatText (encodeRunes [97]) k), [9].tail) :=
  ⟨Or.inl ⟨rfl, by decide, by decide⟩,
    GenerateMatch_star_plus_literal OpStar 5 (Or.inl ⟨rfl, by decide, by decide⟩)
      [97] [] [] 0 0 0 0 [] [9]⟩

theorem repeat_bound_panics (s rune : List Int) (sub2 : List Regexp)
    (mn2 mx2 moreLimit : Int) (b : Builder) (rnd : List Nat) :
    GenerateMatch (.mk OpRepeat rune [.mk OpLiteral s sub2 mn2 mx2] 0 9223372036854775807)
      moreLimit b rnd = none := by
  rw [GenerateMatch_repeat]
  have hB : wrapInt (wrapInt (9223372036854775807 - 0) + 1) = -9223372036854775808 := by
    decide
  rw [hB]
  rfl

/-- C5, counterexample: the repeat node `{0, 2^63 - 1}` over the literal `a`
has `0 <= m <= n`, yet with `moreLimit` 5 on the empty buffer it appends
nothing and returns nothing: the bound `Max - Min + 1` of the draw wraps to
`-2^63` and the sampler panics.  The same holds for every literal child, every
`moreLimit`, every builder and every sequence of draws. -/
theorem GenerateMatch_repeat_bound_overflow :
    GenerateMatch (.mk OpRepeat [] [.mk OpLiteral [97] [] 0 0] 0 9223372036854775807) 5
      (Builder.buf []) [0] = none ∧
    ((0 : Int) ≤ 0 ∧ (0 : Int) ≤ 9223372036854775807) ∧
    wrapInt (wrapInt (9223372036854775807 - 0) + 1) = -9223372036854775808 ∧
    ∀ (s rune : List Int) (sub2 : List Regexp) (mn2 mx2 moreLimit : Int) (b : Builder)
      (rnd : List Nat),
      GenerateMatch (.mk OpRepeat rune [.mk OpLiteral s sub2 mn2 mx2] 0
        9223372036854775807) moreLimit b rnd = none :=
  ⟨repeat_bound_panics _ _ _ _ _ _ _ _, by decide, by decide, repeat_bound_panics⟩

/-- C5 (amended): a repeat node `{m,n}` with `0 <= m <= n <= 2^63 - 1` and
`n - m < 2^63 - 1` over a literal `s` appends, for every sequence of draws,
exactly `k` copies of the text of `s` with `m <= k <= n`; the count `k` is the
same for every `moreLimit` and every initial content. -/
theorem GenerateMatch_repeat_literal (m n : Int) (hm : 0 ≤ m) (hmn : m ≤ n)
    (hn : n ≤ 9223372036854775807) (hdiff : n - m < 9223372036854775807)
    (s rune : List Int) (sub2 : List Regexp) (mn2 mx2 : Int) (rnd : List Nat) :
    ∃ k : Nat, m ≤ (k : Int) ∧ (k : Int) ≤ n ∧
      ∀ (moreLimit : Int) (bytes : List Nat),
        GenerateMatch (.mk OpRepeat rune [.mk OpLiteral s sub2 mn2 mx2] m n) moreLimit
            (Builder.buf bytes) rnd =
          some (Builder.buf (bytes ++ repeatText (encodeRunes s) k), rnd.tail) := by
  have hpos : (0 : Int) < n - m + 1 := by omega
  have hnn := Int.emod_nonneg (rnd.headD 0 : Int) (show n - m + 1 ≠ 0 by omega)
  have hlt := Int.emod_lt_of_pos (rnd.headD 0 : Int) hpos
  have hk := Int.toNat_of_nonneg (show 0 ≤ m + (rnd.headD 0 : Int) % (n - m + 1) by omega)
  have hB : wrapInt (wrapInt (n - m) + 1) = n - m + 1 := by
    rw [wrapInt_of_range (x := n - m) (by omega) (by omega)]
    exact wrapInt_of_range (by omega) (by omega)
  have hC : wrapInt (m + (rnd.headD 0 : Int) % (n - m + 1)) =
      m + (rnd.headD 0 : Int) % (n - m + 1) := wrapInt_of_range (by omega) (by omega)
  refine ⟨(m + (rnd.headD 0 : Int) % (n - m + 1)).toNat, by omega, by omega, ?_⟩
  intro moreLimit bytes
  rw [GenerateMatch_repeat, hB,
    draw_then_loop _ hpos (fun x => (wrapInt (m + x)).toNat), hC]
  exact loopN_literal s sub2 [] mn2 mx2 moreLimit _ bytes rnd.tail

/-- Witness of C5: `a{2,4}`. -/
theorem GenerateMatch_repeat_literal_witness :
    (0 : Int) ≤ 2 ∧ (2 : Int) ≤ 4 ∧ (4 : Int) ≤ 9223372036854775807 ∧
    (4 : Int) - 2 < 9223372036854775807 ∧
    ∃ k : Nat, (2 : Int) ≤ (k : Int) ∧ (k : Int) ≤ 4 ∧
      ∀ (moreLimit : Int) (bytes : List Nat),
        GenerateMatch (.mk OpRepeat [] [.mk OpLiteral [97] [] 0 0] 2 4) moreLimit
            (Builder.buf bytes) [7] =
          some (Builder.buf (bytes ++ repeatText (encodeRunes [97]) k), [7].tail) :=
  ⟨by decide, by decide, by decide, by decide,
    GenerateMatch_repeat_literal 2 4 (by decide) (by decide) (by decide) (by decide)
      [97] [] [] 0 0 [7]⟩

/-- C6 (the code fails the claim): the branch index is drawn below
`len(re.Sub)-1`, not below `len(re.Sub)`.  An alternation with one child
panics; an alternation with two children generates its first child whatever
the draw, so its second branch is never produced; and with `n >= 2` children
the index is a remainder modulo `n - 1`, so it never reaches the last child. -/
theorem GenerateMatch_alternate_skips_last (a c : Regexp) (rest : List Regexp)
    (rune : List Int) (mn mx : Int) (moreLimit : Int) (b : Builder) (rnd : List Nat) :
    GenerateMatch (.mk OpAlternate rune [a] mn mx) moreLimit b rnd = none ∧
    GenerateMatch (.mk OpAlternate rune [a, c] mn mx) moreLimit b rnd =
      GenerateMatch a moreLimit b rnd.tail ∧
    GenerateMatch (.mk OpAlternate rune (a :: c :: rest) mn mx) moreLimit b rnd =
      GenerateSub (a :: c :: rest) (rnd.headD 0 % (rest.length + 1)) moreLimit b rnd.tail := by
  refine ⟨?_, ?_, ?_⟩
  · rw [GenerateMatch_alternate]
    rfl
  · rw [GenerateMatch_alternate]
    simp [cryptoRandInt, GenerateSub]
  · rw [GenerateMatch_alternate]
    have hcast : ((rnd.headD 0 : Nat) : Int) % (((a :: c :: rest).length : Int) - 1) =
        ((rnd.headD 0 % (rest.length + 1) : Nat) : Int) := by
      simp only [List.length_cons]
      push_cast
      congr 1
      omega
    unfold cryptoRandInt
    rw [if_neg (by simp only [List.length_cons]; push_cast; omega)]
    simp only [Option.some_bind, hcast, Int.toNat_ofNat]

/-- C7 (the code fails the claim): `asciiExcluding` keeps the printable
characters that occur in `xchars` instead of removing them; on the empty
string it returns the empty string, not the 95 printable characters. -/
theorem asciiExcluding_keeps_listed (xchars : List Nat) :
    asciiExcluding xchars = (List.range' 32 95).filter (fun i => decide (i ∈ xchars)) ∧
    asciiExcluding [] = [] :=
  ⟨asciiExcluding_eq_filter xchars, by decide⟩

/-- C8 (the code fails the claim): on the class `[^abc]`, whose range pairs are
`0..0x60` and `0x64..MaxRune`, every run appends one character that is a
member of the expansion of the pairs; it is never `a`, `b` or `c`. -/
theorem GenerateMatch_negated_class_appends_member (sub : List Regexp) (mn mx : Int)
    (moreLimit : Int) (bytes : List Nat) (rnd : List Nat) :
    ∃ c : Nat,
      GenerateMatch (.mk OpCharClass [0, 0x60, 0x64, 0x10FFFF] sub mn mx) moreLimit
          (Builder.buf bytes) rnd = some (Builder.buf (bytes ++ [c]), rnd.tail) ∧
      (c : Int) ∈ expandRunes [0, 0x60, 0x64, 0x10FFFF] ∧ c ≠ 97 ∧ c ≠ 98 ∧ c ≠ 99 := by
  have ht : ∀ x ∈ ([0, 0x60, 0x64, 0x10FFFF] : List Int),
      -2147483649 ≤ x ∧ x ≤ 2147483646 := by decide
  have hlen : 2 ≤ (asciiExcluding (charsetOf [0, 0x60, 0x64, 0x10FFFF])).length := by
    rw [asciiExcluding_charsetOf _ ht]
    decide
  obtain ⟨c, hc, hrun⟩ := writeSample_buf _ hlen bytes rnd
  have hmem : c ∈ asciiExcluding (charsetOf [0, 0x60, 0x64, 0x10FFFF]) :=
    List.mem_of_mem_dropLast hc
  rw [asciiExcluding_charsetOf _ ht] at hmem
  simp only [List.mem_filter] at hmem
  refine ⟨c, ?_, (mem_expandRunes_iff _ ht _).mpr hmem.2, ?_, ?_, ?_⟩
  · rw [GenerateMatch_charClass]
    exact hrun
  · rintro rfl
    exact absurd hmem.2 (by decide)
  · rintro rfl
    exact absurd hmem.2 (by decide)
  · rintro rfl
    exact absurd hmem.2 (by decide)

/-- C9 (the code fails the claim): on an any-character node, with or without
newline exclusion, `GenerateMatch` panics for every builder and every sequence
of draws: `asciiExcluding("")` is empty and the sampler is called with -1. -/
theorem GenerateMatch_anyChar_panics (rune : List Int) (sub : List Regexp) (mn mx : Int)
    (moreLimit : Int) (b : Builder) (rnd : List Nat) :
    GenerateMatch (.mk OpAnyCharNotNL rune sub mn mx) moreLimit b rnd = none ∧
    GenerateMatch (.mk OpAnyChar rune sub mn mx) moreLimit b rnd = none := by
  constructor
  · rw [GenerateMatch_anyChar _ (Or.inl rfl)]
    rfl
  · rw [GenerateMatch_anyChar _ (Or.inr rfl)]
    rfl

/-- C10 (the code fails the claim): for every tree, every `moreLimit` and every
count `n + 1 >= 1`, `GenerateStrings` panics in its first iteration, since
`GenerateString` does; and its loop never advances the counter: over any
string generator that always returns, it runs out of every step budget instead
of returning `n + 1` strings. -/
theorem GenerateStrings_positive_count_fails (re : Regexp) (moreLimit : Int) (n : Nat)
    (fuel : Nat) (rnd : List Nat) (g : List Nat → List Nat × List Nat) :
    GenerateStrings re moreLimit ((n : Int) + 1) (fuel + 1) rnd = Run.panic ∧
    GenerateStringsLoop (fun r => some (g r)) ((n : Int) + 1) fuel 0 [] rnd =
      Run.outOfFuel := by
  constructor
  · unfold GenerateStrings
    rw [GenerateStringsLoop, if_pos (by omega), GenerateString_none]
  · exact GenerateStringsLoop_stuck g _ 0 (by omega) fuel [] rnd

/-! ## The loop of `GenerateUniqueStrings` -/

theorem uniqueLoop_safe (gen : List Nat → Option (List Nat × List Nat)) (count : Int)
    (fuel : Nat) :
    ∀ (i ii : Int) (cache result : List (List Nat)) (rnd : List Nat) (out : List (List Nat)),
      result.Nodup → (∀ x, x ∈ cache ↔ x ∈ result) → i = (result.length : Int) → i ≤ count →
      GenerateUniqueStringsLoop gen count fuel i ii cache result rnd = Run.ret out →
      out.Nodup ∧ (out.length : Int) ≤ count := by
  induction fuel with
  | zero =>
    intro i ii cache result rnd out hnd _ hi hle h
    simp only [GenerateUniqueStringsLoop] at h
    split_ifs at h
    simp only [Run.ret.injEq] at h
    subst h
    exact ⟨hnd, by omega⟩
  | succ fuel ih =>
    intro i ii cache result rnd out hnd hc hi hle h
    simp only [GenerateUniqueStringsLoop] at h
    split_ifs at h with h1 h2
    · simp only [Run.ret.injEq] at h
      subst h
      exact ⟨hnd, by omega⟩
    · cases hg : gen rnd with
      | none => simp [hg] at h
      | some p =>
        obtain ⟨item, rnd1⟩ := p
        simp only [hg] at h
        split_ifs at h with h3
        · exact ih i (ii + 1) cache result rnd1 out hnd hc hi hle h
        · refine ih (i + 1) (ii + 1) (item :: cache) (result ++ [item]) rnd1 out ?_ ?_ ?_ ?_ h
          · rw [List.nodup_append]
            refine ⟨hnd, List.nodup_singleton _, ?_⟩
            intro x hx hx2
            simp only [List.mem_singleton] at hx2
            subst hx2
            exact h3 ((hc x).mpr hx)
          · intro x
            simp only [List.mem_cons, List.mem_append, List.mem_singleton, hc x]
            tauto
          · simp only [List.length_append, List.length_singleton]
            push_cast
            omega
          · omega
    · simp only [Run.ret.injEq] at h
      subst h
      exact ⟨hnd, by omega⟩

theorem uniqueLoop_terminates (gen : List Nat → Option (List Nat × List Nat)) (count : Int)
    (fuel : Nat) :
    ∀ (i ii : Int) (cache result : List (List Nat)) (rnd : List Nat),
      ii < iMaxRun → iMaxRun ≤ ii + fuel →
      GenerateUniqueStringsLoop gen count fuel i ii cache result rnd ≠ Run.outOfFuel := by
  induction fuel with
  | zero =>
    intro i ii cache result rnd h1 h2
    simp only [iMaxRun, Nat.cast_zero] at h1 h2
    omega
  | succ fuel ih =>
    intro i ii cache result rnd h1 h2
    simp only [GenerateUniqueStringsLoop]
    split_ifs with h3 h4
    · simp
    · cases hg : gen rnd with
      | none => simp
      | some p =>
        obtain ⟨item, rnd1⟩ := p
        simp only
        have h5 : ii + 1 < iMaxRun := by omega
        have h6 : iMaxRun ≤ ii + 1 + (fuel : Int) := by push_cast at h2; omega
        split_ifs
        · exact ih _ _ _ _ _ h5 h6
        · exact ih _ _ _ _ _ h5 h6
    · simp

theorem uniqueLoop_returns (g : List Nat → List Nat × List Nat) (count : Int) (fuel : Nat) :
    ∀ (i ii : Int) (cache result : List (List Nat)) (rnd : List Nat),
      ii < iMaxRun → iMaxRun ≤ ii + fuel →
      ∃ out, GenerateUniqueStringsLoop (fun r => some (g r)) count fuel i ii cache result rnd =
        Run.ret out := by
  induction fuel with
  | zero =>
    intro i ii cache result rnd h1 h2
    simp only [iMaxRun, Nat.cast_zero] at h1 h2
    omega
  | succ fuel ih =>
    intro i ii cache result rnd h1 h2
    simp only [GenerateUniqueStringsLoop]
    split_ifs with h3 h4
    · exact ⟨_, rfl⟩
    · have h5 : ii + 1 < iMaxRun := by omega
      have h6 : iMaxRun ≤ ii + 1 + (fuel : Int) := by push_cast at h2; omega
      exact ih _ _ _ _ _ h5 h6
    · exact ih _ _ _ _ _ (by omega) (by push_cast at h2; omega)
    · exact ⟨_, rfl⟩

theorem addNew_of_mem {acc : List (List Nat)} {x : List Nat} (h : x ∈ acc) :
    addNew acc x = acc := by
  simp [addNew, h]

theorem addNew_of_not_mem {acc : List (List Nat)} {x : List Nat} (h : x ∉ acc) :
    addNew acc x = acc ++ [x] := by
  simp [addNew, h]

theorem foldl_addNew_prefix (l : List (List Nat)) :
    ∀ acc : List (List Nat), ∃ t, l.foldl addNew acc = acc ++ t := by
  induction l with
  | nil => intro acc; exact ⟨[], by simp⟩
  | cons x l ih =>
    intro acc
    simp only [List.foldl_cons]
    by_cases h : x ∈ acc
    · rw [addNew_of_mem h]
      exact ih acc
    · rw [addNew_of_not_mem h]
      obtain ⟨t, ht⟩ := ih (acc ++ [x])
      exact ⟨[x] ++ t, by rw [ht, List.append_assoc]⟩

theorem generated_add (g : List Nat → List Nat × List Nat) (n k : Nat) :
    ∀ rnd : List Nat, ∃ rnd1, generated g (n + k) rnd = generated g n rnd ++ generated g k rnd1 := by
  induction n with
  | zero => intro rnd; exact ⟨rnd, by simp [generated]⟩
  | succ n ih =>
    intro rnd
    obtain ⟨rnd1, h⟩ := ih (g rnd).2
    refine ⟨rnd1, ?_⟩
    rw [show n + 1 + k = (n + k) + 1 by omega]
    simp only [generated, h, List.cons_append]

/-- The result of a prefix of the generated sequence stays the head of the
result of every longer prefix. -/
theorem firstOccurrences_take (g : List Nat → List Nat × List Nat) (n k : Nat)
    (rnd : List Nat) :
    (firstOccurrences (generated g (n + k) rnd)).take
        (firstOccurrences (generated g n rnd)).length =
      firstOccurrences (generated g n rnd) := by
  obtain ⟨rnd1, h⟩ := generated_add g n k rnd
  unfold firstOccurrences
  rw [h, List.foldl_append]
  obtain ⟨t, ht⟩ := foldl_addNew_prefix (generated g k rnd1)
    (List.foldl addNew [] (generated g n rnd))
  rw [ht]
  simp

theorem uniqueLoop_firstOccurrences (g : List Nat → List Nat × List Nat) (count : Int)
    (fuel : Nat) :
    ∀ (i ii : Int) (cache result : List (List Nat)) (rnd : List Nat) (out : List (List Nat)),
      (∀ x, x ∈ cache ↔ x ∈ result) → i = (result.length : Int) → i ≤ count →
      GenerateUniqueStringsLoop (fun r => some (g r)) count fuel i ii cache result rnd =
        Run.ret out →
      ∃ n : Nat, out = (generated g n rnd).foldl addNew result ∧
        ((out.length : Int) = count ∨ iMaxRun ≤ ii + n + 1) := by
  induction fuel with
  | zero =>
    intro i ii cache result rnd out _ hi hle h
    simp only [GenerateUniqueStringsLoop] at h
    split_ifs at h
    simp only [Run.ret.injEq] at h
    subst h
    exact ⟨0, by simp [generated], Or.inl (by omega)⟩
  | succ fuel ih =>
    intro i ii cache result rnd out hc hi hle h
    simp only [GenerateUniqueStringsLoop] at h
    split_ifs at h with h1 h2 h3
    · simp only [Run.ret.injEq] at h
      subst h
      exact ⟨0, by simp [generated], Or.inr (by simpa using h2)⟩
    · obtain ⟨n, hn, hb⟩ := ih i (ii + 1) cache result (g rnd).2 out hc hi hle h
      refine ⟨n + 1, ?_, ?_⟩
      · simp only [generated, List.foldl_cons]
        rw [addNew_of_mem ((hc _).mp h3)]
        exact hn
      · rcases hb with hb | hb
        · exact Or.inl hb
        · right
          push_cast
          omega
    · have hc2 : ∀ x, x ∈ (g rnd).1 :: cache ↔ x ∈ result ++ [(g rnd).1] := by
        intro x
        simp only [List.mem_cons, List.mem_append, List.mem_singleton, hc x]
        tauto
      obtain ⟨n, hn, hb⟩ := ih (i + 1) (ii + 1) ((g rnd).1 :: cache) (result ++ [(g rnd).1])
        (g rnd).2 out hc2
        (by simp only [List.length_append, List.length_singleton]; push_cast; omega)
        (by omega) h
      refine ⟨n + 1, ?_, ?_⟩
      · simp only [generated, List.foldl_cons]
        rw [addNew_of_not_mem (fun hx => h3 ((hc _).mpr hx))]
        exact hn
      · rcases hb with hb | hb
        · exact Or.inl hb
        · right
          push_cast
          omega
    · simp only [Run.ret.injEq] at h
      subst h
      exact ⟨0, by simp [generated], Or.inl (by omega)⟩

/-- A generator whose strings all lie in a list `S` shorter than `count` never
lets the loop reach `count`: the loop runs as long as the budget lasts, and
what it returns is no longer than `S`. -/
theorem uniqueLoop_stuck (g : List Nat → List Nat × List Nat) (S : List (List Nat))
    (count : Int) (hS : ∀ r, (g r).1 ∈ S) (hcount : (S.length : Int) < count) (fuel : Nat) :
    ∀ (i ii : Int) (cache result : List (List Nat)) (rnd : List Nat),
      cache.Nodup → cache ⊆ S → i = (cache.length : Int) → result.length = cache.length →
      (ii + fuel < iMaxRun →
        GenerateUniqueStringsLoop (fun r => some (g r)) count fuel i ii cache result rnd =
          Run.outOfFuel) ∧
      (∀ out, GenerateUniqueStringsLoop (fun r => some (g r)) count fuel i ii cache result rnd =
          Run.ret out → out.length ≤ S.length) := by
  induction fuel with
  | zero =>
    intro i ii cache result rnd hnd hsub hi hlen
    have hle : cache.length ≤ S.length := (List.subperm_of_subset hnd hsub).length_le
    have hlt : i < count := by omega
    simp only [GenerateUniqueStringsLoop, hlt, if_true]
    refine ⟨?_, ?_⟩ <;> simp
  | succ fuel ih =>
    intro i ii cache result rnd hnd hsub hi hlen
    have hle : cache.length ≤ S.length := (List.subperm_of_subset hnd hsub).length_le
    have hlt : i < count := by omega
    simp only [GenerateUniqueStringsLoop, hlt, if_true]
    split_ifs with h2 h3
    · refine ⟨fun h => ?_, fun out h => ?_⟩
      · push_cast at h
        omega
      · simp only [Run.ret.injEq] at h
        subst h
        omega
    · obtain ⟨ih1, ih2⟩ := ih i (ii + 1) cache result (g rnd).2 hnd hsub hi hlen
      exact ⟨fun h => ih1 (by push_cast at h; omega), ih2⟩
    · obtain ⟨ih1, ih2⟩ := ih (i + 1) (ii + 1) ((g rnd).1 :: cache) (result ++ [(g rnd).1])
        (g rnd).2 (List.nodup_cons.mpr ⟨h3, hnd⟩)
        (List.cons_subset.mpr ⟨hS rnd, hsub⟩)
        (by simp only [List.length_cons]; push_cast; omega)
        (by simp only [List.length_append, List.length_cons, List.length_nil]; omega)
      exact ⟨fun h => ih1 (by push_cast at h; omega), ih2⟩

/-! ## The claims on the batch generators -/

/-- C11: for every count `>= 0` and every string generator (whatever strings it
produces, and whether or not it panics), a sequence returned by the loop of
`GenerateUniqueStrings` holds no string twice and has at most `count` elements.
`GenerateUniqueStrings` is this loop over `GenerateString`. -/
theorem GenerateUniqueStrings_no_duplicates (gen : List Nat → Option (List Nat × List Nat))
    (count : Int) (hcount : 0 ≤ count) (fuel : Nat) (rnd : List Nat) (out : List (List Nat))
    (hret : GenerateUniqueStringsLoop gen count fuel 0 0 [] [] rnd = Run.ret out) :
    out.Nodup ∧ (out.length : Int) ≤ count :=
  uniqueLoop_safe gen count fuel 0 0 [] [] rnd out List.nodup_nil (fun _ => Iff.rfl)
    (by simp) hcount hret

/-- Witness of C11: a generator of one-character strings that yields `b`, `b`,
`c`, asked for two distinct strings. -/
theorem GenerateUniqueStrings_no_duplicates_witness :
    (0 : Int) ≤ 2 ∧
    GenerateUniqueStringsLoop (fun r => some ([97 + r.headD 0 % 3], r.tail)) 2 10 0 0 [] []
      [1, 4, 2, 0] = Run.ret [[98], [99]] ∧
    ([[98], [99]] : List (List Nat)).Nodup ∧
    ((([[98], [99]] : List (List Nat)).length : Nat) : Int) ≤ 2 :=
  ⟨by decide, by decide,
    GenerateUniqueStrings_no_duplicates (fun r => some ([97 + r.headD 0 % 3], r.tail)) 2
      (by decide) 10 [1, 4, 2, 0] [[98], [99]] (by decide)⟩

/-- C12: the loop of `GenerateUniqueStrings` ends within 10,000,000 iterations,
each of which calls the generator at most once, for every tree, `moreLimit`,
count and string generator; over a generator that always returns it ends by
returning a sequence; and an iteration that finds the budget used up
(`ii + 1 >= iMaxRun`) before `count` strings were found returns the strings
collected so far. -/
theorem GenerateUniqueStrings_ends_within_budget (re : Regexp) (moreLimit count : Int)
    (rnd : List Nat) (gen : List Nat → Option (List Nat × List Nat))
    (g : List Nat → List Nat × List Nat) :
    GenerateUniqueStrings re moreLimit count 10000000 rnd ≠ Run.outOfFuel ∧
    GenerateUniqueStringsLoop gen count 10000000 0 0 [] [] rnd ≠ Run.outOfFuel ∧
    (∃ out, GenerateUniqueStringsLoop (fun r => some (g r)) count 10000000 0 0 [] [] rnd =
      Run.ret out) ∧
    (∀ (fuel : Nat) (i ii : Int) (cache result : List (List Nat)) (rnd1 : List Nat),
      i < count → iMaxRun ≤ ii + 1 →
      GenerateUniqueStringsLoop gen count (fuel + 1) i ii cache result rnd1 =
        Run.ret result) := by
  refine ⟨?_, ?_, ?_, ?_⟩
  · exact uniqueLoop_terminates _ count 10000000 0 0 [] [] rnd (by decide) (by decide)
  · exact uniqueLoop_terminates gen count 10000000 0 0 [] [] rnd (by decide) (by decide)
  · exact uniqueLoop_returns g count 10000000 0 0 [] [] rnd (by decide) (by decide)
  · intro fuel i ii cache result rnd1 hi hii
    simp only [GenerateUniqueStringsLoop, hi, if_true]
    rw [if_pos (by omega)]

theorem abGenerator_mem (r : List Nat) :
    [97 + r.headD 0 % 2] ∈ ([[97], [98]] : List (List Nat)) := by
  rcases Nat.mod_two_eq_zero_or_one (r.headD 0) with h | h <;> rw [h] <;> simp

theorem GenerateUniqueStrings_panics (re : Regexp) (moreLimit count : Int)
    (hcount : 0 < count) (fuel : Nat) (rnd : List Nat) :
    GenerateUniqueStrings re moreLimit count (fuel + 1) rnd = Run.panic := by
  unfold GenerateUniqueStrings
  rw [GenerateUniqueStringsLoop, if_pos hcount, if_neg (by decide), GenerateString_none]

/-- C13 (the code fails the claim): on the tree of `[ab]`, asked for 5 strings,
`GenerateUniqueStrings` returns no strings at all: it panics in its first
iteration, on the nil builder of `GenerateString`, for every `moreLimit`, every
positive step budget and every sequence of draws.  Nor has its loop a way to
stop promptly: over a generator for `[ab]` that works (it yields `a` or `b` by
the parity of the draw) the loop is still running after 9,999,999 iterations,
and it returns, with at most 2 strings, only when the retry budget is used
up. -/
theorem GenerateUniqueStrings_fewer_panics (moreLimit : Int) (fuel : Nat) (rnd : List Nat) :
    GenerateUniqueStrings (.mk OpCharClass [97, 98] [] 0 0) moreLimit 5 (fuel + 1) rnd =
      Run.panic ∧
    GenerateUniqueStringsLoop (fun r => some ([97 + r.headD 0 % 2], r.tail)) 5 9999999 0 0
      [] [] rnd = Run.outOfFuel ∧
    ∃ out, GenerateUniqueStringsLoop (fun r => some ([97 + r.headD 0 % 2], r.tail)) 5
      10000000 0 0 [] [] rnd = Run.ret out ∧ out.length ≤ 2 := by
  refine ⟨GenerateUniqueStrings_panics _ moreLimit 5 (by decide) fuel rnd, ?_, ?_⟩
  · exact (uniqueLoop_stuck (fun r => ([97 + r.headD 0 % 2], r.tail)) [[97], [98]] 5
      abGenerator_mem (by decide) 9999999 0 0 [] [] rnd List.nodup_nil
      (List.nil_subset _) rfl rfl).1 (by decide)
  · obtain ⟨out, hout⟩ := uniqueLoop_returns (fun r => ([97 + r.headD 0 % 2], r.tail)) 5
      10000000 0 0 [] [] rnd (by decide) (by decide)
    exact ⟨out, hout, (uniqueLoop_stuck (fun r => ([97 + r.headD 0 % 2], r.tail))
      [[97], [98]] 5 abGenerator_mem (by decide) 10000000 0 0 [] [] rnd List.nodup_nil
      (List.nil_subset _) rfl rfl).2 out hout⟩

/-- C19 (the code fails the claim): for every tree, every `moreLimit` and every
count `n + 1 >= 1`, `GenerateUniqueStrings` returns no sequence of strings: it
panics in its first iteration, on the nil builder of `GenerateString`, long
before the retry budget is reached; only the count 0 returns, with the empty
sequence.  The loop itself does what the claim says: over every string
generator that always returns, and for every count `>= 0`, it returns after
some number `k` of generation attempts the distinct strings among the `k`
generated ones in order of first occurrence, exactly `count` of them unless
the retry budget was used up (`k + 1 >= iMaxRun`), and they are the head of the
distinct values of every longer stretch of the generated sequence. -/
theorem GenerateUniqueStrings_positive_count_panics (re : Regexp) (moreLimit : Int)
    (n : Nat) (fuel : Nat) (rnd : List Nat) :
    GenerateUniqueStrings re moreLimit ((n : Int) + 1) (fuel + 1) rnd = Run.panic ∧
    GenerateUniqueStrings re moreLimit 0 fuel rnd = Run.ret [] ∧
    ∀ (g : List Nat → List Nat × List Nat) (count : Int), 0 ≤ count →
      ∃ (out : List (List Nat)) (k : Nat),
        GenerateUniqueStringsLoop (fun r => some (g r)) count 10000000 0 0 [] [] rnd =
          Run.ret out ∧
        out = firstOccurrences (generated g k rnd) ∧
        ((out.length : Int) = count ∨ iMaxRun ≤ (k : Int) + 1) ∧
        ∀ j : Nat, (firstOccurrences (generated g (k + j) rnd)).take out.length = out := by
  refine ⟨GenerateUniqueStrings_panics re moreLimit _ (by omega) fuel rnd, ?_, ?_⟩
  · unfold GenerateUniqueStrings
    cases fuel <;> simp [GenerateUniqueStringsLoop]
  · intro g count hcount
    obtain ⟨out, hret⟩ := uniqueLoop_returns g count 10000000 0 0 [] [] rnd
      (by decide) (by decide)
    obtain ⟨k, hk, hb⟩ := uniqueLoop_firstOccurrences g count 10000000 0 0 [] [] rnd out
      (fun _ => Iff.rfl) (by simp) hcount hret
    refine ⟨out, k, hret, hk, ?_, ?_⟩
    · rcases hb with hb | hb
      · exact Or.inl hb
      · exact Or.inr (by omega)
    · intro j
      have h := firstOccurrences_take g k j rnd
      unfold firstOccurrences at h ⊢
      rw [← hk] at h
      exact h

/-! ## The claims on single nodes -/

theorem errorText_ne_nil (re : Regexp) : errorText re ≠ [] := by
  cases re with
  | mk op rune sub mn mx =>
    simp only [errorText, Regexp.Op]
    split_ifs
    · decide
    · decide
    · decide
    · intro h
      have h2 := congrArg List.length h
      simp [bytesOf] at h2

/-- C14: on a character class with an odd-length range list, a word-boundary
or non-word-boundary node, a begin-of-text node reached with content in the
buffer, or a node of an unrecognised operator kind, `GenerateMatch` completes
on every builder that holds content `bytes`, leaves `bytes` followed by a
non-empty placeholder text, consumes no draw, and the following siblings of a
concatenation are generated after it. -/
theorem GenerateMatch_structural_error (re : Regexp) (bytes : List Nat)
    (herr : structuralError re bytes = true) (moreLimit : Int) (rnd : List Nat)
    (rest : List Regexp) :
    GenerateMatch re moreLimit (Builder.buf bytes) rnd =
      some (Builder.buf (bytes ++ errorText re), rnd) ∧
    errorText re ≠ [] ∧
    GenerateAll (re :: rest) moreLimit (Builder.buf bytes) rnd =
      GenerateAll rest moreLimit (Builder.buf (bytes ++ errorText re)) rnd := by
  have hrun : GenerateMatch re moreLimit (Builder.buf bytes) rnd =
      some (Builder.buf (bytes ++ errorText re), rnd) := by
    cases re with
    | mk op rune sub mn mx =>
      simp only [structuralError, Regexp.Op, Regexp.Rune, Bool.or_eq_true, Bool.and_eq_true,
        decide_eq_true_eq] at herr
      rcases herr with ((⟨h, hodd⟩ | h) | ⟨h, hne⟩) | h
      · subst h
        rw [GenerateMatch_charClass, if_pos hodd]
        simp [Builder.WriteString, errorText, Regexp.Op]
      · rw [GenerateMatch_wordBoundary op h]
        have h1 : op ≠ OpCharClass := by rcases h with h | h <;> subst h <;> decide
        have h2 : op ≠ OpBeginText := by rcases h with h | h <;> subst h <;> decide
        simp [Builder.WriteString, errorText, Regexp.Op, h1, h2, h]
      · subst h
        rw [GenerateMatch_beginText]
        have hlen : bytes.length > 0 := List.length_pos.mpr hne
        simp [Builder.Len, Builder.WriteString, errorText, Regexp.Op, hlen]
      · rw [GenerateMatch_default op h]
        have h1 : op ≠ OpCharClass := by
          simp only [OpCharClass]; omega
        have h2 : op ≠ OpBeginText := by
          simp only [OpBeginText]; omega
        have h3 : ¬ (op = OpWordBoundary ∨ op = OpNoWordBoundary) := by
          simp only [OpWordBoundary, OpNoWordBoundary]; omega
        simp [Builder.WriteString, errorText, Regexp.Op, h1, h2, h3]
  refine ⟨hrun, errorText_ne_nil re, ?_⟩
  rw [GenerateAll, hrun]
  rfl

/-- Witness of C14: the node of `\b` between the literals `a` and `c`. -/
theorem GenerateMatch_structural_error_witness :
    structuralError (.mk OpWordBoundary [] [] 0 0) [97] = true ∧
    (GenerateMatch (.mk OpWordBoundary [] [] 0 0) 5 (Builder.buf [97]) [3] =
      some (Builder.buf ([97] ++ errorText (.mk OpWordBoundary [] [] 0 0)), [3]) ∧
    errorText (.mk OpWordBoundary [] [] 0 0) ≠ [] ∧
    GenerateAll [.mk OpWordBoundary [] [] 0 0, .mk OpLiteral [99] [] 0 0] 5
        (Builder.buf [97]) [3] =
      GenerateAll [.mk OpLiteral [99] [] 0 0] 5
        (Builder.buf ([97] ++ errorText (.mk OpWordBoundary [] [] 0 0))) [3]) :=
  ⟨by decide,
    GenerateMatch_structural_error (.mk OpWordBoundary [] [] 0 0) [97] (by decide) 5 [3]
      [.mk OpLiteral [99] [] 0 0]⟩

/-- C18: a begin-of-line node and an end-of-line node alike append exactly one
newline when the builder holds content, and append nothing when it is empty;
no draw is consumed. -/
theorem GenerateMatch_line_anchor (op : Nat) (hop : op = OpBeginLine ∨ op = OpEndLine)
    (rune : List Int) (sub : List Regexp) (mn mx moreLimit : Int) (bytes : List Nat)
    (rnd : List Nat) :
    (bytes ≠ [] → GenerateMatch (.mk op rune sub mn mx) moreLimit (Builder.buf bytes) rnd =
      some (Builder.buf (bytes ++ [10]), rnd)) ∧
    GenerateMatch (.mk op rune sub mn mx) moreLimit (Builder.buf []) rnd =
      some (Builder.buf [], rnd) := by
  refine ⟨?_, ?_⟩
  · intro hne
    have hlen : bytes.length > 0 := List.length_pos.mpr hne
    rw [GenerateMatch_line op hop]
    simp [Builder.Len, Builder.WriteByte, hlen]
  · rw [GenerateMatch_line op hop]
    rfl

/-- Witness of C18: an end-of-line node after the content `a`, and on the
empty buffer. -/
theorem GenerateMatch_line_anchor_witness :
    (OpEndLine = OpBeginLine ∨ OpEndLine = OpEndLine) ∧
    (([97] : List Nat) ≠ [] → GenerateMatch (.mk OpEndLine [] [] 0 0) 5 (Builder.buf [97]) [3] =
      some (Builder.buf ([97] ++ [10]), [3])) ∧
    GenerateMatch (.mk OpEndLine [] [] 0 0) 5 (Builder.buf []) [3] =
      some (Builder.buf [], [3]) :=
  ⟨Or.inr rfl, GenerateMatch_line_anchor OpEndLine (Or.inr rfl) [] [] 0 0 5 [97] [3]⟩

/-- C20 (the code fails the claim): on the class `[abc]`, whose only range pair
is `a..c`, every run appends `a` or `b`; the member `c`, the last of the
candidate string, is appended under no sequence of draws. -/
theorem GenerateMatch_class_skips_last (sub : List Regexp) (mn mx moreLimit : Int)
    (bytes : List Nat) (rnd : List Nat) :
    expandRunes [97, 99] = [97, 98, 99] ∧
    (GenerateMatch (.mk OpCharClass [97, 99] sub mn mx) moreLimit (Builder.buf bytes) rnd =
        some (Builder.buf (bytes ++ [97]), rnd.tail) ∨
      GenerateMatch (.mk OpCharClass [97, 99] sub mn mx) moreLimit (Builder.buf bytes) rnd =
        some (Builder.buf (bytes ++ [98]), rnd.tail)) := by
  refine ⟨by decide, ?_⟩
  have hset : charsetOf [97, 99] = [97, 98, 99] := by decide
  obtain ⟨c, hc, hrun⟩ := writeSample_buf [97, 98, 99] (by decide) bytes rnd
  have hgen : GenerateMatch (.mk OpCharClass [97, 99] sub mn mx) moreLimit
      (Builder.buf bytes) rnd = writeSample [97, 98, 99] (Builder.buf bytes) rnd := by
    rw [GenerateMatch_charClass, hset]
    rfl
  rw [hgen, hrun]
  simp only [List.dropLast, List.mem_cons, List.mem_singleton, List.not_mem_nil, or_false] at hc
  rcases hc with h | h <;> subst h
  · exact Or.inl rfl
  · exact Or.inr rfl

/-- C15 (the code fails the claim): three valid trees on which `GenerateMatch`
panics for every builder and every sequence of draws, each time because the
sampler is called with a bound `<= 0`: the tree of `.` with any `moreLimit`
(bound -1), the tree of `a+` with `moreLimit = 0` (bound 0), and the tree of
`a{2,}`, whose `Max` is -1 (bound -2). -/
theorem GenerateMatch_valid_tree_panics (moreLimit : Int) (b : Builder) (rnd : List Nat) :
    GenerateMatch (.mk OpAnyCharNotNL [] [] 0 0) moreLimit b rnd = none ∧
    GenerateMatch (.mk OpPlus [] [.mk OpLiteral [97] [] 0 0] 0 0) 0 b rnd = none ∧
    GenerateMatch (.mk OpRepeat [] [.mk OpLiteral [97] [] 0 0] 2 (-1)) moreLimit b rnd =
      none := by
  refine ⟨?_, ?_, ?_⟩
  · rw [GenerateMatch_anyChar _ (Or.inl rfl)]
    rfl
  · rw [GenerateMatch_plus]
    rfl
  · rw [GenerateMatch_repeat]
    rfl

/-! ## Termination: the recursion budget -/

theorem loopRun_toRun {bodyR : Builder → List Nat → Run (Builder × List Nat)}
    {bodyO : Builder → List Nat → Option (Builder × List Nat)}
    (hbody : ∀ b rnd, bodyR b rnd = toRun (bodyO b rnd)) (n : Nat) :
    ∀ b rnd, loopRun bodyR n b rnd = toRun (loopN bodyO n b rnd) := by
  induction n with
  | zero => intro b rnd; rfl
  | succ n ih =>
    intro b rnd
    simp only [loopRun, loopN, hbody]
    cases bodyO b rnd with
    | none => rfl
    | some p => simp only [toRun, Option.some_bind, ih]

theorem GenerateStep_default (recur : Regexp → Int → Builder → List Nat → Run (Builder × List Nat))
    (op : Nat) (hop : op = 0 ∨ 20 ≤ op)
    (rune : List Int) (sub : List Regexp) (mn mx ml : Int) (b : Builder) (rnd : List Nat) :
    GenerateStep recur (.mk op rune sub mn mx) ml b rnd =
      toRun ((b.WriteString (bytesOf "<invalid op" ++ bytesOf (Nat.repr op) ++ bytesOf ">")).map
        (fun b1 => (b1, rnd))) := by
  unfold GenerateStep
  simp only [OpNoMatch, OpEmptyMatch, OpLiteral, OpCharClass, OpAnyCharNotNL, OpAnyChar,
    OpBeginLine, OpEndLine, OpBeginText, OpEndText, OpWordBoundary, OpNoWordBoundary,
    OpCapture, OpStar, OpPlus, OpQuest, OpRepeat, OpConcat, OpAlternate]
  rw [if_neg (by omega), if_neg (by omega), if_neg (by omega), if_neg (by omega),
    if_neg (by omega), if_neg (by omega), if_neg (by omega), if_neg (by omega),
    if_neg (by omega), if_neg (by omega), if_neg (by omega), if_neg (by omega),
    if_neg (by omega), if_neg (by omega), if_neg (by omega)]

theorem GenerateStep_capture (recur : Regexp → Int → Builder → List Nat → Run (Builder × List Nat))
    (rune : List Int) (sub : List Regexp) (mn mx ml : Int) (b : Builder) (rnd : List Nat) :
    GenerateStep recur (.mk OpCapture rune sub mn mx) ml b rnd =
      match sub.head? with
      | none => Run.panic
      | some s =>
        if s.Op ≠ OpEmptyMatch then subRun recur sub 0 ml b rnd else Run.ret (b, rnd) := by
  rfl

theorem GenerateStep_star (recur : Regexp → Int → Builder → List Nat → Run (Builder × List Nat))
    (rune : List Int) (sub : List Regexp) (mn mx ml : Int) (b : Builder) (rnd : List Nat) :
    GenerateStep recur (.mk OpStar rune sub mn mx) ml b rnd =
      match cryptoRandInt (wrapInt (wrapInt (ml - 0) + 1)) rnd with
      | none => Run.panic
      | some p =>
        loopRun (fun b1 r1 => subRun recur sub 0 ml b1 r1) (wrapInt (0 + p.1)).toNat
          b p.2 := by
  rfl

theorem GenerateStep_plus (recur : Regexp → Int → Builder → List Nat → Run (Builder × List Nat))
    (rune : List Int) (sub : List Regexp) (mn mx ml : Int) (b : Builder) (rnd : List Nat) :
    GenerateStep recur (.mk OpPlus rune sub mn mx) ml b rnd =
      match cryptoRandInt (wrapInt (wrapInt (ml - 1) + 1)) rnd with
      | none => Run.panic
      | some p =>
        loopRun (fun b1 r1 => subRun recur sub 0 ml b1 r1) (wrapInt (1 + p.1)).toNat
          b p.2 := by
  rfl

theorem GenerateStep_quest (recur : Regexp → Int → Builder → List Nat → Run (Builder × List Nat))
    (rune : List Int) (sub : List Regexp) (mn mx ml : Int) (b : Builder) (rnd : List Nat) :
    GenerateStep recur (.mk OpQuest rune sub mn mx) ml b rnd =
      match cryptoRandInt 0x7FFFFFFF rnd with
      | none => Run.panic
      | some p =>
        if p.1 > 0x3FFFFFFF then subRun recur sub 0 ml b p.2 else Run.ret (b, p.2) := by
  rfl

theorem GenerateStep_repeat (recur : Regexp → Int → Builder → List Nat → Run (Builder × List Nat))
    (rune : List Int) (sub : List Regexp) (mn mx ml : Int) (b : Builder) (rnd : List Nat) :
    GenerateStep recur (.mk OpRepeat rune sub mn mx) ml b rnd =
      match cryptoRandInt (wrapInt (wrapInt (mx - mn) + 1)) rnd with
      | none => Run.panic
      | some p =>
        loopRun (fun b1 r1 => subRun recur sub 0 ml b1 r1) (wrapInt (mn + p.1)).toNat
          b p.2 := by
  rfl

theorem GenerateStep_alternate (recur : Regexp → Int → Builder → List Nat → Run (Builder × List Nat))
    (rune : List Int) (sub : List Regexp) (mn mx ml : Int) (b : Builder) (rnd : List Nat) :
    GenerateStep recur (.mk OpAlternate rune sub mn mx) ml b rnd =
      match cryptoRandInt ((sub.length : Int) - 1) rnd with
      | none => Run.panic
      | some p => subRun recur sub p.1.toNat ml b p.2 := by
  rfl

/-- With a budget of at least the height of the tree, the budgeted run is the
run of `GenerateMatch`. -/
theorem GenerateMatchFuel_eq (re : Regexp) :
    ∀ n : Nat, height re ≤ n → ∀ (ml : Int) (b : Builder) (rnd : List Nat),
      GenerateMatchFuel n re ml b rnd = toRun (GenerateMatch re ml b rnd) := by
  refine @Regexp.rec
    (fun re => ∀ n : Nat, height re ≤ n → ∀ (ml : Int) (b : Builder) (rnd : List Nat),
      GenerateMatchFuel n re ml b rnd = toRun (GenerateMatch re ml b rnd))
    (fun subs => ∀ n : Nat, heightAll subs ≤ n → ∀ (ml : Int),
      (∀ (i : Nat) (b : Builder) (rnd : List Nat),
        subRun (fun s m b1 r1 => GenerateMatchFuel n s m b1 r1) subs i ml b rnd =
          toRun (GenerateSub subs i ml b rnd)) ∧
      (∀ (b : Builder) (rnd : List Nat),
        allRun (fun s m b1 r1 => GenerateMatchFuel n s m b1 r1) subs ml b rnd =
          toRun (GenerateAll subs ml b rnd)))
    ?_ ?_ ?_ re
  · intro op rune sub mn mx ih n hn ml b rnd
    simp only [height] at hn
    obtain ⟨m, rfl⟩ : ∃ m, n = m + 1 := ⟨n - 1, by omega⟩
    have ihs := (ih m (by omega) ml).1
    have iha := (ih m (by omega) ml).2
    rw [GenerateMatchFuel]
    rcases op_cases op with hop | hop | hop | hop | hop | hop | hop | hop | hop | hop | hop |
      hop | hop | hop | hop | hop | hop
    · subst hop
      rw [GenerateMatch_noMatch]
      rfl
    · subst hop
      rw [GenerateMatch_emptyMatch]
      rfl
    · subst hop
      rw [GenerateMatch_literal]
      rfl
    · subst hop
      rw [GenerateMatch_charClass]
      show (if rune.length % 2 ≠ 0 then _ else _) = _
      split_ifs
      · rfl
      · split
        · split_ifs <;> rfl
        · rfl
    · rw [GenerateMatch_anyChar op hop]
      rcases hop with h | h <;> subst h <;> rfl
    · rw [GenerateMatch_line op hop]
      rcases hop with h | h <;> subst h <;> rfl
    · subst hop
      rw [GenerateMatch_beginText]
      rfl
    · subst hop
      rw [GenerateMatch_endText]
      rfl
    · rw [GenerateMatch_wordBoundary op hop]
      rcases hop with h | h <;> subst h <;> rfl
    · subst hop
      rw [GenerateMatch_capture, GenerateStep_capture]
      cases sub.head? with
      | none => rfl
      | some s =>
        simp only [Option.some_bind]
        split_ifs
        · exact ihs 0 b rnd
        · rfl
    · subst hop
      rw [GenerateMatch_star, GenerateStep_star]
      cases cryptoRandInt (wrapInt (wrapInt (ml - 0) + 1)) rnd with
      | none => rfl
      | some p =>
        simp only [Option.some_bind]
        exact loopRun_toRun (fun b1 r1 => ihs 0 b1 r1) _ b p.2
    · subst hop
      rw [GenerateMatch_plus, GenerateStep_plus]
      cases cryptoRandInt (wrapInt (wrapInt (ml - 1) + 1)) rnd with
      | none => rfl
      | some p =>
        simp only [Option.some_bind]
        exact loopRun_toRun (fun b1 r1 => ihs 0 b1 r1) _ b p.2
    · subst hop
      rw [GenerateMatch_quest, GenerateStep_quest]
      cases cryptoRandInt 0x7FFFFFFF rnd with
      | none => rfl
      | some p =>
        simp only [Option.some_bind]
        split_ifs
        · exact ihs 0 b p.2
        · rfl
    · subst hop
      rw [GenerateMatch_repeat, GenerateStep_repeat]
      cases cryptoRandInt (wrapInt (wrapInt (mx - mn) + 1)) rnd with
      | none => rfl
      | some p =>
        simp only [Option.some_bind]
        exact loopRun_toRun (fun b1 r1 => ihs 0 b1 r1) _ b p.2
    · subst hop
      rw [GenerateMatch_concat]
      exact iha b rnd
    · subst hop
      rw [GenerateMatch_alternate, GenerateStep_alternate]
      cases cryptoRandInt ((sub.length : Int) - 1) rnd with
      | none => rfl
      | some p =>
        simp only [Option.some_bind]
        exact ihs _ b p.2
    · rw [GenerateMatch_default op hop, GenerateStep_default _ op hop]
  · intro n _ ml
    refine ⟨?_, ?_⟩
    · intro i b rnd
      simp [subRun, GenerateSub, toRun]
    · intro b rnd
      rfl
  · intro head tail ih1 ih2 n hn ml
    simp only [heightAll, Nat.max_def] at hn
    have h1 : height head ≤ n := by split_ifs at hn <;> omega
    have h2 : heightAll tail ≤ n := by split_ifs at hn <;> omega
    refine ⟨?_, ?_⟩
    · intro i b rnd
      cases i with
      | zero =>
        simp only [subRun, List.get?_cons_zero, GenerateSub]
        exact ih1 n h1 ml b rnd
      | succ i =>
        have := (ih2 n h2 ml).1 i b rnd
        simp only [subRun, List.get?_cons_succ, GenerateSub] at this ⊢
        exact this
    · intro b rnd
      simp only [allRun, GenerateAll, ih1 n h1 ml b rnd]
      cases GenerateMatch head ml b rnd with
      | none => rfl
      | some p =>
        simp only [toRun, Option.some_bind]
        exact (ih2 n h2 ml).2 p.1 p.2

theorem toRun_ne_outOfFuel {α : Type} (o : Option α) : toRun o ≠ Run.outOfFuel := by
  cases o <;> simp [toRun]

/-- C16: `GenerateMatch` terminates on every finite tree, for every `moreLimit`,
builder and sequence of draws.  Run with a budget on the depth of its
recursion, it never exhausts a budget of the height of the tree (or more): it
recurses only into children of the current node, and its loops are counted
loops whose count is fixed before the first iteration; the outcome (a result
or a panic) is the one of `GenerateMatch`. -/
theorem GenerateMatch_terminates (re : Regexp) (k : Nat) (moreLimit : Int) (b : Builder)
    (rnd : List Nat) :
    GenerateMatchFuel (height re + k) re moreLimit b rnd ≠ Run.outOfFuel ∧
    GenerateMatchFuel (height re + k) re moreLimit b rnd =
      toRun (GenerateMatch re moreLimit b rnd) := by
  have h := GenerateMatchFuel_eq re (height re + k) (by omega) moreLimit b rnd
  exact ⟨by rw [h]; exact toRun_ne_outOfFuel _, h⟩

/-! ## Printable output -/

theorem digitChar_printable (d : Nat) (hd : d < 10) : printable (Nat.digitChar d).toNat := by
  unfold printable
  interval_cases d <;> decide

theorem toDigitsCore_printable (fuel : Nat) :
    ∀ (n : Nat) (ds : List Char), (∀ c ∈ ds, printable c.toNat) →
      ∀ c ∈ Nat.toDigitsCore 10 fuel n ds, printable c.toNat := by
  induction fuel with
  | zero => intro n ds hds; simpa [Nat.toDigitsCore] using hds
  | succ fuel ih =>
    intro n ds hds
    have hd : ∀ c ∈ Nat.digitChar (n % 10) :: ds, printable c.toNat := by
      intro c hc
      rcases List.mem_cons.mp hc with h | h
      · rw [h]
        exact digitChar_printable _ (Nat.mod_lt _ (by decide))
      · exact hds c h
    simp only [Nat.toDigitsCore]
    split_ifs
    · exact hd
    · exact ih _ _ hd

theorem repr_printable (n : Nat) : ∀ c ∈ bytesOf (Nat.repr n), printable c := by
  intro c hc
  simp only [bytesOf, Nat.repr, Nat.toDigits, List.asString, List.mem_map] at hc
  obtain ⟨ch, hch, rfl⟩ := hc
  exact toDigitsCore_printable _ _ [] (by simp) ch hch

theorem noMatchText_printable :
    ∀ c ∈ bytesOf "<No Match operator is unsupported>", printable c := by
  unfold printable; decide

theorem classText_printable : ∀ c ∈ bytesOf "[invalid char class]", printable c := by
  unfold printable; decide

theorem beginText_printable :
    ∀ c ∈ bytesOf "<Invalid position of OpBeginText. Needs to be at the start of expression>",
      printable c := by
  unfold printable; decide

theorem wordText_printable :
    ∀ c ∈ bytesOf "<Word boundary operators are unsupported>", printable c := by
  unfold printable; decide

theorem invalidOpText_printable (op : Nat) :
    ∀ c ∈ bytesOf "<invalid op" ++ bytesOf (Nat.repr op) ++ bytesOf ">", printable c := by
  intro c hc
  simp only [List.mem_append] at hc
  rcases hc with (h | h) | h
  · exact (show ∀ c ∈ bytesOf "<invalid op", printable c by unfold printable; decide) c h
  · exact repr_printable op c h
  · exact (show ∀ c ∈ bytesOf ">", printable c by unfold printable; decide) c h

theorem inClass_printable : ∀ {rune : List Int} {r : Int}, printableRunes rune = true →
    inClass rune r = true → 32 ≤ r ∧ r ≤ 126
  | [], r, _, h => by simp [inClass] at h
  | [_], r, _, h => by simp [inClass] at h
  | lo :: hi :: rest, r, ha, h => by
    simp only [printableRunes, List.all_cons, Bool.and_eq_true, decide_eq_true_eq] at ha
    simp only [inClass, Bool.or_eq_true, decide_eq_true_eq] at h
    rcases h with h | h
    · omega
    · exact @inClass_printable rest r (by simp only [printableRunes]; exact ha.2.2) h

theorem charsetOf_printable {rune : List Int} (hp : printableRunes rune = true) :
    ∀ c ∈ charsetOf rune, printable c := by
  intro c hc
  simp only [charsetOf, List.mem_flatMap] at hc
  obtain ⟨r, hr, hcr⟩ := hc
  have htyped : ∀ x ∈ rune, -2147483649 ≤ x := by
    intro x hx
    have := List.all_eq_true.mp hp x hx
    simp only [decide_eq_true_eq] at this
    omega
  have hb := inClass_printable hp (mem_expandRunes _ htyped _ hr)
  rw [encodeRune_ascii (by omega) (by omega)] at hcr
  simp only [List.mem_singleton] at hcr
  subst hcr
  unfold printable
  have := Int.toNat_of_nonneg (show 0 ≤ r by omega)
  omega

theorem encodeRunes_printable {rune : List Int} (hp : printableRunes rune = true) :
    ∀ c ∈ encodeRunes rune, printable c := by
  intro c hc
  simp only [encodeRunes, List.mem_flatMap] at hc
  obtain ⟨r, hr, hcr⟩ := hc
  simp only [printableRunes, List.all_eq_true, decide_eq_true_eq] at hp
  have hb := hp r hr
  rw [encodeRune_ascii (by omega) (by omega)] at hcr
  simp only [List.mem_singleton] at hcr
  subst hcr
  unfold printable
  have := Int.toNat_of_nonneg (show 0 ≤ r by omega)
  omega

theorem writeString_appendsBytes {Q : Nat → Prop} {s : List Nat} (hs : ∀ c ∈ s, Q c) :
    AppendsBytes Q (fun b rnd => (b.WriteString s).map (fun b1 => (b1, rnd))) := by
  intro bytes rnd b1 rnd1 h
  simp only [Builder.WriteString, Option.map_some', Option.some.injEq, Prod.mk.injEq] at h
  exact ⟨s, h.1.symm, hs⟩

theorem writeSample_appendsBytes {Q : Nat → Prop} {stringset : List Nat}
    (hs : ∀ c ∈ stringset, Q c) : AppendsBytes Q (writeSample stringset) := by
  intro bytes rnd b1 rnd1 h
  obtain ⟨c, hc, hb, -⟩ := writeSample_some h
  exact ⟨[c], hb, by intro x hx; rw [List.mem_singleton.mp hx]; exact hs c hc⟩

theorem nothing_appendsBytes {Q : Nat → Prop} {bytes : List Nat} {rnd : List Nat}
    {b1 : Builder} {rnd1 : List Nat} (h : some (Builder.buf bytes, rnd) = some (b1, rnd1)) :
    ∃ w, b1 = Builder.buf (bytes ++ w) ∧ ∀ c ∈ w, Q c := by
  simp only [Option.some.injEq, Prod.mk.injEq] at h
  exact ⟨[], by simp [← h.1], by simp⟩

theorem loopN_appendsBytes {Q : Nat → Prop}
    {body : Builder → List Nat → Option (Builder × List Nat)}
    (hbody : AppendsBytes Q body) (k : Nat) : AppendsBytes Q (loopN body k) := by
  induction k with
  | zero =>
    intro bytes rnd b1 rnd1 h
    exact nothing_appendsBytes h
  | succ k ih =>
    intro bytes rnd b1 rnd1 h
    simp only [loopN, Option.bind_eq_some] at h
    obtain ⟨⟨b2, rnd2⟩, h1, h2⟩ := h
    obtain ⟨u, rfl, hu⟩ := hbody bytes rnd b2 rnd2 h1
    obtain ⟨v, rfl, hv⟩ := ih _ _ _ _ h2
    refine ⟨u ++ v, by simp, ?_⟩
    intro c hc
    rcases List.mem_append.mp hc with h | h
    · exact hu c h
    · exact hv c h

theorem printable_sound (re : Regexp) :
    printableTree re = true → ∀ Q : Nat → Prop, (∀ c, printable c → Q c) →
      (hasLineAnchor re = true → Q 10) → ∀ ml : Int, AppendsBytes Q (GenerateMatch re ml) := by
  refine @Regexp.rec
    (fun re => printableTree re = true → ∀ Q : Nat → Prop, (∀ c, printable c → Q c) →
      (hasLineAnchor re = true → Q 10) → ∀ ml : Int, AppendsBytes Q (GenerateMatch re ml))
    (fun subs => printableTreeAll subs = true → ∀ Q : Nat → Prop, (∀ c, printable c → Q c) →
      (hasLineAnchorAll subs = true → Q 10) → ∀ ml : Int,
      (∀ i : Nat, AppendsBytes Q (GenerateSub subs i ml)) ∧
      AppendsBytes Q (GenerateAll subs ml))
    ?_ ?_ ?_ re
  · intro op rune sub mn mx ih hp Q hQ hnl ml
    simp only [printableTree, Bool.and_eq_true] at hp
    obtain ⟨hnode, hsub⟩ := hp
    have hnl2 : hasLineAnchorAll sub = true → Q 10 := by
      intro h
      apply hnl
      simp [hasLineAnchor, h]
    have ihs := (ih hsub Q hQ hnl2 ml).1
    have iha := (ih hsub Q hQ hnl2 ml).2
    intro bytes rnd b1 rnd1 hrun
    rcases op_cases op with hop | hop | hop | hop | hop | hop | hop | hop | hop | hop | hop |
      hop | hop | hop | hop | hop | hop
    · subst hop
      rw [GenerateMatch_noMatch] at hrun
      exact writeString_appendsBytes (fun c hc => hQ c (noMatchText_printable c hc))
        bytes rnd b1 rnd1 hrun
    · subst hop
      rw [GenerateMatch_emptyMatch] at hrun
      exact writeString_appendsBytes (fun c hc => by simp at hc) bytes rnd b1 rnd1 hrun
    · subst hop
      rw [GenerateMatch_literal, writeRunes_buf] at hrun
      simp only [Option.map_some', Option.some.injEq, Prod.mk.injEq] at hrun
      simp only [if_true] at hnode
      exact ⟨encodeRunes rune, hrun.1.symm,
        fun c hc => hQ c (encodeRunes_printable hnode c hc)⟩
    · subst hop
      rw [GenerateMatch_charClass] at hrun
      split_ifs at hrun with hodd
      · exact writeString_appendsBytes (fun c hc => hQ c (classText_printable c hc))
          bytes rnd b1 rnd1 hrun
      · split at hrun
        · rename_i first last hfirst hlast
          split_ifs at hrun with hneg
          · exact writeSample_appendsBytes
              (fun c hc => hQ c ⟨(mem_asciiExcluding hc).1, (mem_asciiExcluding hc).2.1⟩)
              bytes rnd b1 rnd1 hrun
          · have hpr : printableRunes rune = true := by
              have h1 : ¬ (OpCharClass = OpLiteral) := by decide
              simp only [h1, if_false, if_true, Bool.or_eq_true, decide_eq_true_eq] at hnode
              rcases hnode with (h | h) | h
              · exact absurd h hodd
              · exfalso
                apply hneg
                simp only [negatedClass, decide_eq_true_eq, hfirst, hlast,
                  Option.some.injEq] at h
                exact h
              · exact h
            exact writeSample_appendsBytes
              (fun c hc => hQ c (charsetOf_printable hpr c hc)) bytes rnd b1 rnd1 hrun
        · simp at hrun
    · rw [GenerateMatch_anyChar op hop] at hrun
      exact writeSample_appendsBytes
        (fun c hc => hQ c ⟨(mem_asciiExcluding hc).1, (mem_asciiExcluding hc).2.1⟩)
        bytes rnd b1 rnd1 hrun
    · rw [GenerateMatch_line op hop] at hrun
      simp only [Builder.Len, Option.some_bind] at hrun
      split_ifs at hrun
      · simp only [Builder.WriteByte, Option.map_some', Option.some.injEq,
          Prod.mk.injEq] at hrun
        refine ⟨[10], hrun.1.symm, ?_⟩
        intro c hc
        rw [List.mem_singleton.mp hc]
        apply hnl
        simp [hasLineAnchor, hop]
      · exact nothing_appendsBytes hrun
    · subst hop
      rw [GenerateMatch_beginText] at hrun
      simp only [Builder.Len, Option.some_bind] at hrun
      split_ifs at hrun
      · exact writeString_appendsBytes (fun c hc => hQ c (beginText_printable c hc))
          bytes rnd b1 rnd1 hrun
      · exact nothing_appendsBytes hrun
    · subst hop
      rw [GenerateMatch_endText] at hrun
      exact nothing_appendsBytes hrun
    · rw [GenerateMatch_wordBoundary op hop] at hrun
      exact writeString_appendsBytes (fun c hc => hQ c (wordText_printable c hc))
        bytes rnd b1 rnd1 hrun
    · subst hop
      rw [GenerateMatch_capture] at hrun
      simp only [Option.bind_eq_some] at hrun
      obtain ⟨s, -, hrun⟩ := hrun
      split_ifs at hrun
      · exact ihs 0 bytes rnd b1 rnd1 hrun
      · exact nothing_appendsBytes hrun
    · subst hop
      rw [GenerateMatch_star] at hrun
      simp only [Option.bind_eq_some] at hrun
      obtain ⟨p, -, hrun⟩ := hrun
      exact loopN_appendsBytes (ihs 0) _ bytes p.2 b1 rnd1 hrun
    · subst hop
      rw [GenerateMatch_plus] at hrun
      simp only [Option.bind_eq_some] at hrun
      obtain ⟨p, -, hrun⟩ := hrun
      exact loopN_appendsBytes (ihs 0) _ bytes p.2 b1 rnd1 hrun
    · subst hop
      rw [GenerateMatch_quest] at hrun
      simp only [Option.bind_eq_some] at hrun
      obtain ⟨p, -, hrun⟩ := hrun
      split_ifs at hrun
      · exact ihs 0 bytes p.2 b1 rnd1 hrun
      · exact nothing_appendsBytes hrun
    · subst hop
      rw [GenerateMatch_repeat] at hrun
      simp only [Option.bind_eq_some] at hrun
      obtain ⟨p, -, hrun⟩ := hrun
      exact loopN_appendsBytes (ihs 0) _ bytes p.2 b1 rnd1 hrun
    · subst hop
      rw [GenerateMatch_concat] at hrun
      exact iha bytes rnd b1 rnd1 hrun
    · subst hop
      rw [GenerateMatch_alternate] at hrun
      simp only [Option.bind_eq_some] at hrun
      obtain ⟨p, -, hrun⟩ := hrun
      exact ihs _ bytes p.2 b1 rnd1 hrun
    · rw [GenerateMatch_default op hop] at hrun
      exact writeString_appendsBytes (fun c hc => hQ c (invalidOpText_printable op c hc))
        bytes rnd b1 rnd1 hrun
  · intro _ Q _ _ ml
    refine ⟨?_, ?_⟩
    · intro i bytes rnd b1 rnd1 h
      simp [GenerateSub] at h
    · intro bytes rnd b1 rnd1 h
      simp only [GenerateAll] at h
      exact nothing_appendsBytes h
  · intro head tail ih1 ih2 hp Q hQ hnl ml
    have h2 : printableTree head = true ∧ printableTreeAll tail = true := by
      simpa [printableTreeAll] using hp
    have hnl1 : hasLineAnchor head = true → Q 10 := by
      intro h; apply hnl; simp [hasLineAnchorAll, h]
    have hnl2 : hasLineAnchorAll tail = true → Q 10 := by
      intro h; apply hnl; simp [hasLineAnchorAll, h]
    refine ⟨?_, ?_⟩
    · intro i
      cases i with
      | zero =>
        intro bytes rnd b1 rnd1 h
        simp only [GenerateSub] at h
        exact ih1 h2.1 Q hQ hnl1 ml bytes rnd b1 rnd1 h
      | succ i =>
        intro bytes rnd b1 rnd1 h
        simp only [GenerateSub] at h
        exact (ih2 h2.2 Q hQ hnl2 ml).1 i bytes rnd b1 rnd1 h
    · intro bytes rnd b1 rnd1 h
      simp only [GenerateAll, Option.bind_eq_some] at h
      obtain ⟨⟨b2, rnd2⟩, hh, ht⟩ := h
      obtain ⟨u, rfl, hu⟩ := ih1 h2.1 Q hQ hnl1 ml bytes rnd b2 rnd2 hh
      obtain ⟨v, hb, hv⟩ := (ih2 h2.2 Q hQ hnl2 ml).2 _ _ _ _ ht
      refine ⟨u ++ v, by simp [hb], ?_⟩
      intro c hc
      rcases List.mem_append.mp hc with h | h
      · exact hu c h
      · exact hv c h

/-! ## Where the newlines come from -/

theorem Emits_mk (op : Nat) (rune : List Int) (sub : List Regexp) (mn mx : Int)
    (mw : List (Nat × Bool)) :
    Emits (.mk op rune sub mn mx) mw ↔
      (((op = OpBeginLine ∨ op = OpEndLine) ∧ (mw = [] ∨ mw = [(10, true)])) ∨
      ((op = OpCapture ∨ op = OpQuest) ∧ (mw = [] ∨ EmitsSub sub 0 mw)) ∨
      ((op = OpStar ∨ op = OpPlus ∨ op = OpRepeat) ∧
        ∃ k, PowerMarked (fun u => EmitsSub sub 0 u) k mw) ∨
      (op = OpConcat ∧ EmitsAll sub mw) ∨
      (op = OpAlternate ∧ ∃ i, EmitsSub sub i mw) ∨
      (¬ (op = OpBeginLine ∨ op = OpEndLine ∨ op = OpCapture ∨ op = OpQuest ∨ op = OpStar ∨
          op = OpPlus ∨ op = OpRepeat ∨ op = OpConcat ∨ op = OpAlternate) ∧
        ∀ p ∈ mw, p.2 = false)) := by
  rw [Emits]

theorem marked_nothing {L : List (Nat × Bool) → Prop} (hL : L []) {bytes : List Nat}
    {rnd : List Nat} {b1 : Builder} {rnd1 : List Nat}
    (h : some (Builder.buf bytes, rnd) = some (b1, rnd1)) :
    ∃ mw, L mw ∧ b1 = Builder.buf (bytes ++ mw.map Prod.fst) ∧
      ∀ p ∈ mw, (p.2 = true → p.1 = 10) ∧ (p.2 = false → printable p.1) := by
  simp only [Option.some.injEq, Prod.mk.injEq] at h
  exact ⟨[], hL, by simp [← h.1], by simp⟩

/-- A node that appends a text of its own: printable bytes, none of them marked. -/
theorem marked_leaf (op : Nat)
    (hleaf : ¬ (op = OpBeginLine ∨ op = OpEndLine ∨ op = OpCapture ∨ op = OpQuest ∨
      op = OpStar ∨ op = OpPlus ∨ op = OpRepeat ∨ op = OpConcat ∨ op = OpAlternate))
    (rune : List Int) (sub : List Regexp) (mn mx : Int) {bytes : List Nat} {b1 : Builder}
    (h : ∃ w, b1 = Builder.buf (bytes ++ w) ∧ ∀ c ∈ w, printable c) :
    ∃ mw, Emits (.mk op rune sub mn mx) mw ∧ b1 = Builder.buf (bytes ++ mw.map Prod.fst) ∧
      ∀ p ∈ mw, (p.2 = true → p.1 = 10) ∧ (p.2 = false → printable p.1) := by
  obtain ⟨w, hb, hw⟩ := h
  refine ⟨w.map (fun c => (c, false)), ?_, ?_, ?_⟩
  · refine (Emits_mk _ _ _ _ _ _).mpr
      (Or.inr (Or.inr (Or.inr (Or.inr (Or.inr ⟨hleaf, ?_⟩)))))
    intro p hp
    obtain ⟨c, -, rfl⟩ := List.mem_map.mp hp
    rfl
  · rw [hb]
    simp [Function.comp_def]
  · intro p hp
    obtain ⟨c, hc, rfl⟩ := List.mem_map.mp hp
    exact ⟨by simp, fun _ => hw c hc⟩

theorem loopN_marked {L : List (Nat × Bool) → Prop}
    {body : Builder → List Nat → Option (Builder × List Nat)}
    (hbody : AppendsMarked L body) (k : Nat) :
    AppendsMarked (PowerMarked L k) (loopN body k) := by
  induction k with
  | zero =>
    intro bytes rnd b1 rnd1 h
    exact marked_nothing (L := PowerMarked L 0) rfl h
  | succ k ih =>
    intro bytes rnd b1 rnd1 h
    simp only [loopN, Option.bind_eq_some] at h
    obtain ⟨⟨b2, rnd2⟩, h1, h2⟩ := h
    obtain ⟨u, hu, rfl, hmu⟩ := hbody bytes rnd b2 rnd2 h1
    obtain ⟨v, hv, rfl, hmv⟩ := ih _ _ _ _ h2
    refine ⟨u ++ v, ⟨u, v, rfl, hu, hv⟩, by simp, ?_⟩
    intro p hp
    rcases List.mem_append.mp hp with h | h
    · exact hmu p h
    · exact hmv p h

theorem marked_sound (re : Regexp) :
    printableTree re = true → ∀ ml : Int, AppendsMarked (Emits re) (GenerateMatch re ml) := by
  refine @Regexp.rec
    (fun re => printableTree re = true → ∀ ml : Int,
      AppendsMarked (Emits re) (GenerateMatch re ml))
    (fun subs => printableTreeAll subs = true → ∀ ml : Int,
      (∀ i : Nat, AppendsMarked (EmitsSub subs i) (GenerateSub subs i ml)) ∧
      AppendsMarked (EmitsAll subs) (GenerateAll subs ml))
    ?_ ?_ ?_ re
  · intro op rune sub mn mx ih hp ml
    simp only [printableTree, Bool.and_eq_true] at hp
    obtain ⟨hnode, hsub⟩ := hp
    have ihs := (ih hsub ml).1
    have iha := (ih hsub ml).2
    intro bytes rnd b1 rnd1 hrun
    rcases op_cases op with hop | hop | hop | hop | hop | hop | hop | hop | hop | hop | hop |
      hop | hop | hop | hop | hop | hop
    · subst hop
      rw [GenerateMatch_noMatch] at hrun
      exact marked_leaf _ (by decide) rune sub mn mx
        (writeString_appendsBytes (fun c hc => noMatchText_printable c hc)
          bytes rnd b1 rnd1 hrun)
    · subst hop
      rw [GenerateMatch_emptyMatch] at hrun
      exact marked_leaf _ (by decide) rune sub mn mx
        (writeString_appendsBytes (fun c hc => by simp at hc) bytes rnd b1 rnd1 hrun)
    · subst hop
      rw [GenerateMatch_literal, writeRunes_buf] at hrun
      simp only [Option.map_some', Option.some.injEq, Prod.mk.injEq] at hrun
      simp only [if_true] at hnode
      exact marked_leaf _ (by decide) rune sub mn mx
        ⟨encodeRunes rune, hrun.1.symm, fun c hc => encodeRunes_printable hnode c hc⟩
    · subst hop
      apply marked_leaf _ (by decide) rune sub mn mx
      rw [GenerateMatch_charClass] at hrun
      split_ifs at hrun with hodd
      · exact writeString_appendsBytes (fun c hc => classText_printable c hc)
          bytes rnd b1 rnd1 hrun
      · split at hrun
        · rename_i first last hfirst hlast
          split_ifs at hrun with hneg
          · exact writeSample_appendsBytes
              (fun c hc => ⟨(mem_asciiExcluding hc).1, (mem_asciiExcluding hc).2.1⟩)
              bytes rnd b1 rnd1 hrun
          · have hpr : printableRunes rune = true := by
              have h1 : ¬ (OpCharClass = OpLiteral) := by decide
              simp only [h1, if_false, if_true, Bool.or_eq_true, decide_eq_true_eq] at hnode
              rcases hnode with (h | h) | h
              · exact absurd h hodd
              · exfalso
                apply hneg
                simp only [negatedClass, decide_eq_true_eq, hfirst, hlast,
                  Option.some.injEq] at h
                exact h
              · exact h
            exact writeSample_appendsBytes
              (fun c hc => charsetOf_printable hpr c hc) bytes rnd b1 rnd1 hrun
        · simp at hrun
    · rw [GenerateMatch_anyChar op hop] at hrun
      exact marked_leaf _ (by rcases hop with h | h <;> subst h <;> decide) rune sub mn mx
        (writeSample_appendsBytes
          (fun c hc => ⟨(mem_asciiExcluding hc).1, (mem_asciiExcluding hc).2.1⟩)
          bytes rnd b1 rnd1 hrun)
    · rw [GenerateMatch_line op hop] at hrun
      simp only [Builder.Len, Option.some_bind] at hrun
      split_ifs at hrun
      · simp only [Builder.WriteByte, Option.map_some', Option.some.injEq,
          Prod.mk.injEq] at hrun
        refine ⟨[(10, true)], ?_, by simp [← hrun.1], by simp⟩
        exact (Emits_mk _ _ _ _ _ _).mpr
          (Or.inl ⟨hop, Or.inr rfl⟩)
      · refine marked_nothing ?_ hrun
        exact (Emits_mk _ _ _ _ _ _).mpr
          (Or.inl ⟨hop, Or.inl rfl⟩)
    · subst hop
      rw [GenerateMatch_beginText] at hrun
      simp only [Builder.Len, Option.some_bind] at hrun
      apply marked_leaf _ (by decide) rune sub mn mx
      split_ifs at hrun
      · exact writeString_appendsBytes (fun c hc => beginText_printable c hc)
          bytes rnd b1 rnd1 hrun
      · exact nothing_appendsBytes hrun
    · subst hop
      rw [GenerateMatch_endText] at hrun
      exact marked_leaf _ (by decide) rune sub mn mx (nothing_appendsBytes hrun)
    · rw [GenerateMatch_wordBoundary op hop] at hrun
      exact marked_leaf _ (by rcases hop with h | h <;> subst h <;> decide) rune sub mn mx
        (writeString_appendsBytes (fun c hc => wordText_printable c hc)
          bytes rnd b1 rnd1 hrun)
    · subst hop
      rw [GenerateMatch_capture] at hrun
      simp only [Option.bind_eq_some] at hrun
      obtain ⟨s, -, hrun⟩ := hrun
      split_ifs at hrun
      · obtain ⟨mw, hmw, hb, hm⟩ := ihs 0 bytes rnd b1 rnd1 hrun
        refine ⟨mw, ?_, hb, hm⟩
        exact (Emits_mk _ _ _ _ _ _).mpr
          (Or.inr (Or.inl ⟨Or.inl rfl, Or.inr hmw⟩))
      · refine marked_nothing ?_ hrun
        exact (Emits_mk _ _ _ _ _ _).mpr
          (Or.inr (Or.inl ⟨Or.inl rfl, Or.inl rfl⟩))
    · subst hop
      rw [GenerateMatch_star] at hrun
      simp only [Option.bind_eq_some] at hrun
      obtain ⟨p, -, hrun⟩ := hrun
      obtain ⟨mw, hmw, hb, hm⟩ := loopN_marked (ihs 0) _ bytes p.2 b1 rnd1 hrun
      refine ⟨mw, ?_, hb, hm⟩
      exact (Emits_mk _ _ _ _ _ _).mpr
        (Or.inr (Or.inr (Or.inl ⟨Or.inl rfl, _, hmw⟩)))
    · subst hop
      rw [GenerateMatch_plus] at hrun
      simp only [Option.bind_eq_some] at hrun
      obtain ⟨p, -, hrun⟩ := hrun
      obtain ⟨mw, hmw, hb, hm⟩ := loopN_marked (ihs 0) _ bytes p.2 b1 rnd1 hrun
      refine ⟨mw, ?_, hb, hm⟩
      exact (Emits_mk _ _ _ _ _ _).mpr
        (Or.inr (Or.inr (Or.inl ⟨Or.inr (Or.inl rfl), _, hmw⟩)))
    · subst hop
      rw [GenerateMatch_quest] at hrun
      simp only [Option.bind_eq_some] at hrun
      obtain ⟨p, -, hrun⟩ := hrun
      split_ifs at hrun
      · obtain ⟨mw, hmw, hb, hm⟩ := ihs 0 bytes p.2 b1 rnd1 hrun
        refine ⟨mw, ?_, hb, hm⟩
        exact (Emits_mk _ _ _ _ _ _).mpr
          (Or.inr (Or.inl ⟨Or.inr rfl, Or.inr hmw⟩))
      · refine marked_nothing ?_ hrun
        exact (Emits_mk _ _ _ _ _ _).mpr
          (Or.inr (Or.inl ⟨Or.inr rfl, Or.inl rfl⟩))
    · subst hop
      rw [GenerateMatch_repeat] at hrun
      simp only [Option.bind_eq_some] at hrun
      obtain ⟨p, -, hrun⟩ := hrun
      obtain ⟨mw, hmw, hb, hm⟩ := loopN_marked (ihs 0) _ bytes p.2 b1 rnd1 hrun
      refine ⟨mw, ?_, hb, hm⟩
      exact (Emits_mk _ _ _ _ _ _).mpr
        (Or.inr (Or.inr (Or.inl ⟨Or.inr (Or.inr rfl), _, hmw⟩)))
    · subst hop
      rw [GenerateMatch_concat] at hrun
      obtain ⟨mw, hmw, hb, hm⟩ := iha bytes rnd b1 rnd1 hrun
      refine ⟨mw, ?_, hb, hm⟩
      exact (Emits_mk _ _ _ _ _ _).mpr
        (Or.inr (Or.inr (Or.inr (Or.inl ⟨rfl, hmw⟩))))
    · subst hop
      rw [GenerateMatch_alternate] at hrun
      simp only [Option.bind_eq_some] at hrun
      obtain ⟨p, -, hrun⟩ := hrun
      obtain ⟨mw, hmw, hb, hm⟩ := ihs _ bytes p.2 b1 rnd1 hrun
      refine ⟨mw, ?_, hb, hm⟩
      exact (Emits_mk _ _ _ _ _ _).mpr
        (Or.inr (Or.inr (Or.inr (Or.inr (Or.inl ⟨rfl, _, hmw⟩)))))
    · rw [GenerateMatch_default op hop] at hrun
      have hleaf : ¬ (op = OpBeginLine ∨ op = OpEndLine ∨ op = OpCapture ∨ op = OpQuest ∨
          op = OpStar ∨ op = OpPlus ∨ op = OpRepeat ∨ op = OpConcat ∨ op = OpAlternate) := by
        intro h
        rcases h with h | h | h | h | h | h | h | h | h <;> rcases hop with h2 | h2 <;>
          subst h <;> exact absurd h2 (by decide)
      exact marked_leaf _ hleaf rune sub mn mx
        (writeString_appendsBytes (fun c hc => invalidOpText_printable op c hc)
          bytes rnd b1 rnd1 hrun)
  · intro _ ml
    refine ⟨?_, ?_⟩
    · intro i bytes rnd b1 rnd1 h
      simp [GenerateSub] at h
    · intro bytes rnd b1 rnd1 h
      simp only [GenerateAll] at h
      exact marked_nothing (by simp only [EmitsAll]) h
  · intro head tail ih1 ih2 hp ml
    have h2 : printableTree head = true ∧ printableTreeAll tail = true := by
      simpa [printableTreeAll] using hp
    refine ⟨?_, ?_⟩
    · intro i
      cases i with
      | zero =>
        intro bytes rnd b1 rnd1 h
        simp only [GenerateSub] at h
        obtain ⟨mw, hmw, hb, hm⟩ := ih1 h2.1 ml bytes rnd b1 rnd1 h
        exact ⟨mw, by simp only [EmitsSub]; exact hmw, hb, hm⟩
      | succ i =>
        intro bytes rnd b1 rnd1 h
        simp only [GenerateSub] at h
        obtain ⟨mw, hmw, hb, hm⟩ := (ih2 h2.2 ml).1 i bytes rnd b1 rnd1 h
        exact ⟨mw, by simp only [EmitsSub]; exact hmw, hb, hm⟩
    · intro bytes rnd b1 rnd1 h
      simp only [GenerateAll, Option.bind_eq_some] at h
      obtain ⟨⟨b2, rnd2⟩, hh, ht⟩ := h
      obtain ⟨u, hu, rfl, hmu⟩ := ih1 h2.1 ml bytes rnd b2 rnd2 hh
      obtain ⟨v, hv, hb, hmv⟩ := (ih2 h2.2 ml).2 _ _ _ _ ht
      refine ⟨u ++ v, by simp only [EmitsAll]; exact ⟨u, v, rfl, hu, hv⟩, by simp [hb], ?_⟩
      intro p hp
      rcases List.mem_append.mp hp with h | h
      · exact hmu p h
      · exact hmv p h

/-! ## The claim on the characters of the output -/

/-- C17, as stated, fails: the literal `é` is written as the two bytes 195 and
169, which are neither printable ASCII nor a newline; and the literal that
holds a newline is written as a newline although the tree has no anchor. -/
theorem GenerateMatch_literal_not_printable :
    GenerateMatch (.mk OpLiteral [233] [] 0 0) 5 (Builder.buf []) [] =
      some (Builder.buf [195, 169], []) ∧
    ¬ (printable 195 ∨ 195 = 10) ∧
    GenerateMatch (.mk OpLiteral [10] [] 0 0) 5 (Builder.buf []) [] =
      some (Builder.buf [10], []) ∧
    hasLineAnchor (.mk OpLiteral [10] [] 0 0) = false := by
  refine ⟨by decide, ?_, by decide, by decide⟩
  unfold printable
  decide

/-- C17, amended: for a tree whose literals hold printable ASCII only and
whose character classes are malformed, recognised as negated or bounded by
printable ASCII, every `moreLimit` and every sequence of draws on which
`GenerateMatch` completes from the empty buffer, every byte of the produced
string is printable ASCII or a newline, and a newline occurs only where a
begin-of-line or end-of-line node was generated: the string is the text of the
nodes generated along the tree (`Emits`), in which a byte is a newline exactly
when a begin-of-line or end-of-line node appended it and every other byte is
printable; in particular a tree without such nodes produces no newline. -/
theorem GenerateMatch_output_printable (re : Regexp) (hre : printableTree re = true)
    (moreLimit : Int) (rnd : List Nat) (out : List Nat) (rnd1 : List Nat)
    (hrun : GenerateMatch re moreLimit (Builder.buf []) rnd = some (Builder.buf out, rnd1)) :
    (∀ c ∈ out, printable c ∨ c = 10) ∧
    (∃ mw, Emits re mw ∧ out = mw.map Prod.fst ∧
      ∀ p ∈ mw, (p.1 = 10 ↔ p.2 = true) ∧ (p.2 = false → printable p.1)) ∧
    (hasLineAnchor re = false → ∀ c ∈ out, printable c) := by
  refine ⟨?_, ?_, ?_⟩
  · obtain ⟨w, hw, hQ⟩ := printable_sound re hre (fun c => printable c ∨ c = 10)
      (fun c hc => Or.inl hc) (fun _ => Or.inr rfl) moreLimit [] rnd _ rnd1 hrun
    simp only [List.nil_append, Builder.buf.injEq] at hw
    rw [hw]
    exact hQ
  · obtain ⟨mw, hmw, hb, hm⟩ := marked_sound re hre moreLimit [] rnd _ rnd1 hrun
    simp only [List.nil_append, Builder.buf.injEq] at hb
    refine ⟨mw, hmw, hb, ?_⟩
    intro p hp
    obtain ⟨h1, h2⟩ := hm p hp
    refine ⟨⟨?_, h1⟩, h2⟩
    intro h10
    cases hp2 : p.2 with
    | true => rfl
    | false =>
      have := h2 hp2
      unfold printable at this
      omega
  · intro hno
    obtain ⟨w, hw, hQ⟩ := printable_sound re hre printable (fun c hc => hc)
      (fun h => by rw [hno] at h; exact absurd h (by decide)) moreLimit [] rnd _ rnd1 hrun
    simp only [List.nil_append, Builder.buf.injEq] at hw
    rw [hw]
    exact hQ

/-- Witness of the amended C17 on the tree of `^ab$`, where the end-of-line
node writes the newline. -/
theorem GenerateMatch_output_printable_witness :
    printableTree (.mk OpConcat [] [.mk OpBeginLine [] [] 0 0, .mk OpLiteral [97, 98] [] 0 0,
      .mk OpEndLine [] [] 0 0] 0 0) = true ∧
    GenerateMatch (.mk OpConcat [] [.mk OpBeginLine [] [] 0 0, .mk OpLiteral [97, 98] [] 0 0,
      .mk OpEndLine [] [] 0 0] 0 0) 5 (Builder.buf []) [] =
        some (Builder.buf [97, 98, 10], []) ∧
    (∀ c ∈ [97, 98, 10], printable c ∨ c = 10) ∧
    (∃ mw, Emits (.mk OpConcat [] [.mk OpBeginLine [] [] 0 0, .mk OpLiteral [97, 98] [] 0 0,
        .mk OpEndLine [] [] 0 0] 0 0) mw ∧ [97, 98, 10] = mw.map Prod.fst ∧
      ∀ p ∈ mw, (p.1 = 10 ↔ p.2 = true) ∧ (p.2 = false → printable p.1)) ∧
    (hasLineAnchor (.mk OpConcat [] [.mk OpBeginLine [] [] 0 0,
        .mk OpLiteral [97, 98] [] 0 0, .mk OpEndLine [] [] 0 0] 0 0) = false →
      ∀ c ∈ [97, 98, 10], printable c) :=
  ⟨by decide, by decide,
    GenerateMatch_output_printable _ (by decide) 5 [] [97, 98, 10] [] (by decide)⟩

end Regexrand
